import Mathlib

/-!
Verification development for the `mono` artifact-cache engine
(`internal/mono/cache.go`).

The Go code is shallowly embedded:
* bytes are `Nat` values (< 256 by construction of the producers);
* SHA-256 is implemented executably over byte lists, with 32-bit words
  represented as `Nat` reduced `% 2^32` at every step that can overflow;
* the filesystem is a rose tree (`FsEntry`) whose directory nodes carry an
  association list of child name/entry pairs; regular files carry an inode
  number so hardlink sharing is observable;
* fallible operations return `Option`/`Except`, and stateful operations
  thread a `SyncState` record explicitly.

Definitions keep the names of the Go functions they embed wherever Lean
allows.  Definitions that transcribe prose (because the claim asks for a
comparison against the spec's words, or because the relevant helper is not
part of the sources) say so in their doc comments.
-/

namespace Mono

/-! ### SHA-256, executable

`crypto/sha256` as used by `ComputeCacheKey` and `ComputeProjectID`.
All definitions are structurally recursive so that concrete digests reduce
by `decide`/`rfl`. -/

/-- Reduce a `Nat` to a 32-bit word. -/
def w32 (n : Nat) : Nat := n % 4294967296

/-- Right rotation of a 32-bit word (the two shifted parts occupy disjoint
bit ranges, so `+` agrees with bitwise or). -/
def rotr32 (x n : Nat) : Nat := x / 2 ^ n + x % 2 ^ n * 2 ^ (32 - n)

/-- Logical right shift of a 32-bit word. -/
def shr32 (x n : Nat) : Nat := x / 2 ^ n

/-- SHA-256 Σ₀. -/
def bigSigma0 (x : Nat) : Nat := (rotr32 x 2) ^^^ (rotr32 x 13) ^^^ (rotr32 x 22)

/-- SHA-256 Σ₁. -/
def bigSigma1 (x : Nat) : Nat := (rotr32 x 6) ^^^ (rotr32 x 11) ^^^ (rotr32 x 25)

/-- SHA-256 σ₀. -/
def smallSigma0 (x : Nat) : Nat := (rotr32 x 7) ^^^ (rotr32 x 18) ^^^ (shr32 x 3)

/-- SHA-256 σ₁. -/
def smallSigma1 (x : Nat) : Nat := (rotr32 x 17) ^^^ (rotr32 x 19) ^^^ (shr32 x 10)

/-- SHA-256 choice function (`e`'s complement is taken against the 32-bit mask). -/
def chF (e f g : Nat) : Nat := (e &&& f) ^^^ ((e ^^^ 4294967295) &&& g)

/-- SHA-256 majority function. -/
def majF (a b c : Nat) : Nat := (a &&& b) ^^^ (a &&& c) ^^^ (b &&& c)

/-- The 64 SHA-256 round constants. -/
def sha256K : List Nat :=
  [1116352408, 1899447441, 3049323471, 3921009573, 961987163, 1508970993,
   2453635748, 2870763221, 3624381080, 310598401, 607225278, 1426881987,
   1925078388, 2162078206, 2614888103, 3248222580, 3835390401, 4022224774,
   264347078, 604807628, 770255983, 1249150122, 1555081692, 1996064986,
   2554220882, 2821834349, 2952996808, 3210313671, 3336571891, 3584528711,
   113926993, 338241895, 666307205, 773529912, 1294757372, 1396182291,
   1695183700, 1986661051, 2177026350, 2456956037, 2730485921, 2820302411,
   3259730800, 3345764771, 3516065817, 3600352804, 4094571909, 275423344,
   430227734, 506948616, 659060556, 883997877, 958139571, 1322822218,
   1537002063, 1747873779, 1955562222, 2024104815, 2227730452, 2361852424,
   2428436474, 2756734187, 3204031479, 3329325298]

/-- The eight 32-bit working variables of the compression function. -/
structure Sha256State where
  a : Nat
  b : Nat
  c : Nat
  d : Nat
  e : Nat
  f : Nat
  g : Nat
  h : Nat

/-- SHA-256 initial hash value. -/
def sha256H0 : Sha256State :=
  ⟨1779033703, 3144134277, 1013904242, 2773480762,
   1359893119, 2600822924, 528734635, 1541459225⟩

/-- One round of the SHA-256 compression function. -/
def sha256Round (s : Sha256State) (k w : Nat) : Sha256State :=
  let t1 := w32 (s.h + bigSigma1 s.e + chF s.e s.f s.g + k + w)
  let t2 := w32 (bigSigma0 s.a + majF s.a s.b s.c)
  ⟨w32 (t1 + t2), s.a, s.b, s.c, w32 (s.d + t1), s.e, s.f, s.g⟩

/-- Pack a block of bytes into big-endian 32-bit words, four bytes per word. -/
def sha256Words : List Nat → List Nat
  | b0 :: b1 :: b2 :: b3 :: rest => (((b0 * 256 + b1) * 256 + b2) * 256 + b3) :: sha256Words rest
  | _ => []

/-- Extend the 16 message-schedule words by `n` further words. -/
def sha256Extend (ws : List Nat) : Nat → List Nat
  | 0 => ws
  | n + 1 =>
    let prev := sha256Extend ws n
    let len := prev.length
    prev ++ [w32 (prev.getD (len - 16) 0 + smallSigma0 (prev.getD (len - 15) 0) +
                  prev.getD (len - 7) 0 + smallSigma1 (prev.getD (len - 2) 0))]

/-- Compress one 64-byte block into the running hash state. -/
def sha256Compress (st : Sha256State) (block : List Nat) : Sha256State :=
  let ws := sha256Extend (sha256Words block) 48
  let r := (List.zip sha256K ws).foldl (fun s kw => sha256Round s kw.1 kw.2) st
  ⟨w32 (st.a + r.a), w32 (st.b + r.b), w32 (st.c + r.c), w32 (st.d + r.d),
   w32 (st.e + r.e), w32 (st.f + r.f), w32 (st.g + r.g), w32 (st.h + r.h)⟩

/-- A 64-bit big-endian length field. -/
def be64 (n : Nat) : List Nat :=
  [n / 2 ^ 56 % 256, n / 2 ^ 48 % 256, n / 2 ^ 40 % 256, n / 2 ^ 32 % 256,
   n / 2 ^ 24 % 256, n / 2 ^ 16 % 256, n / 2 ^ 8 % 256, n % 256]

/-- SHA-256 padding: `0x80`, zeros to 56 mod 64, then the bit length. -/
def sha256Pad (msg : List Nat) : List Nat :=
  msg ++ 128 :: List.replicate ((119 - msg.length % 64) % 64) 0 ++ be64 (8 * msg.length)

/-- Fold the compression function over `fuel` consecutive 64-byte blocks. -/
def sha256Blocks : Nat → Sha256State → List Nat → Sha256State
  | 0, st, _ => st
  | fuel + 1, st, l => sha256Blocks fuel (sha256Compress st (l.take 64)) (l.drop 64)

/-- Serialize the final hash state as 32 big-endian bytes. -/
def sha256Bytes (st : Sha256State) : List Nat :=
  [st.a, st.b, st.c, st.d, st.e, st.f, st.g, st.h].flatMap
    (fun w => [w / 2 ^ 24 % 256, w / 2 ^ 16 % 256, w / 2 ^ 8 % 256, w % 256])

/-- SHA-256 of a byte string. -/
def sha256 (msg : List Nat) : List Nat :=
  let padded := sha256Pad msg
  sha256Bytes (sha256Blocks (padded.length / 64) sha256H0 padded)

/-- The sixteen lowercase hex digits, as `encoding/hex` uses them:
`0`–`9` are code points 48–57 and `a`–`f` are 97–102. -/
def hexChars : List Char :=
  (List.range 10).map (fun n => Char.ofNat (48 + n))
    ++ (List.range 6).map (fun n => Char.ofNat (97 + n))

/-- One lowercase hex digit. -/
def hexDigit (n : Nat) : Char := hexChars.getD n '0'

/-- `hex.EncodeToString` over a byte list, as a character list. -/
def hexEncode : List Nat → List Char
  | [] => []
  | b :: rest => hexDigit (b / 16) :: hexDigit (b % 16) :: hexEncode rest

/-! ### Fingerprint engine (`ComputeCacheKey`)

The filesystem and process environment that `ComputeCacheKey` consults are
abstracted as two functions: `read` maps a key-file path (given as its
components below the workspace) to the outcome of `os.Open`/`io.Copy`, and
`runCmd` maps a key-command string to `some stdout` on success or `none`
when `exec.Command("bash","-c",cmd).Output()` reports a non-zero exit.
`runCmd` takes no workspace argument because the Go code spawns the
command with the calling process's own working directory and environment. -/

/-- Outcome of opening and reading one key file. -/
inductive ReadResult where
  | absent
  | ok (data : List Nat)
  | ioError
deriving DecidableEq

/-- The caller-provided artifact descriptor (`ArtifactConfig`).  Paths are
represented by their components. -/
structure ArtifactConfig where
  Name : String
  KeyFiles : List (List String)
  KeyCommands : List String
  Paths : List (List String)

/-- Error kinds of the fingerprint engine. -/
inductive CacheErr where
  | keyFileRead (f : List String)
  | keyCommandFailed (c : String)
deriving DecidableEq

/-- The key-file loop of `ComputeCacheKey` (cache.go lines 78-92): a missing
file is skipped silently, any other read error aborts, and the surviving
contents are fed to the hash in list order.  Feeding a streaming hash is
represented by returning the concatenated bytes. -/
def hashKeyFiles (read : List String → ReadResult) : List (List String) → Except CacheErr (List Nat)
  | [] => .ok []
  | f :: rest =>
    match read f with
    | .absent => hashKeyFiles read rest
    | .ioError => .error (.keyFileRead f)
    | .ok d => (hashKeyFiles read rest).map (fun t => d ++ t)

/-- The key-command loop of `ComputeCacheKey` (cache.go lines 94-100): a
failing command is a hard error, otherwise captured stdout is fed to the
hash in list order. -/
def hashKeyCommands (runCmd : String → Option (List Nat)) : List String → Except CacheErr (List Nat)
  | [] => .ok []
  | c :: rest =>
    match runCmd c with
    | none => .error (.keyCommandFailed c)
    | some out => (hashKeyCommands runCmd rest).map (fun t => out ++ t)

/-- `ComputeCacheKey` (cache.go lines 75-103): hash the key-file contents
then the key-command outputs, and return the first 16 hex characters of the
digest. -/
def ComputeCacheKey (a : ArtifactConfig) (read : List String → ReadResult)
    (runCmd : String → Option (List Nat)) : Except CacheErr String :=
  match hashKeyFiles read a.KeyFiles with
  | .error e => .error e
  | .ok fileBytes =>
    match hashKeyCommands runCmd a.KeyCommands with
    | .error e => .error e
    | .ok cmdBytes => .ok (String.mk ((hexEncode (sha256 (fileBytes ++ cmdBytes))).take 16))

/-- The contribution of one key file, as the spec words it ("each key-file's
bytes ..., missing files skipped silently"). -/
def keyFileData (read : List String → ReadResult) (f : List String) : Option (List Nat) :=
  match read f with
  | .ok d => some d
  | _ => none

/-- The hashed material as §3 of the spec words it: "the byte concatenation
of (1) each key-file's bytes in list order (missing files skipped silently)
and (2) the captured standard output of each key-command in list order".
Stated from the spec's words, to be compared with `ComputeCacheKey`. -/
def specKeyBytes (a : ArtifactConfig) (read : List String → ReadResult)
    (runCmd : String → Option (List Nat)) : List Nat :=
  (a.KeyFiles.filterMap (keyFileData read)).flatten ++ (a.KeyCommands.filterMap runCmd).flatten

/-! ### Build environment contribution (`EnvVars`) -/

/-- Modelled from the spec: the `BuildConfig` schema (`build.strategy`,
`build.download_cache`, `build.sccache`) is declared in `config.go`, which
is not among the sources; its fields are taken from §6 of the spec and the
in-repo design document. -/
structure BuildConfig where
  Strategy : String
  DownloadCache : Bool
  Sccache : Option Bool

/-- `shouldEnableSccache` (cache.go lines 158-163). -/
def shouldEnableSccache (sccacheAvailable : Bool) (cfg : BuildConfig) : Bool :=
  match cfg.Sccache with
  | some b => b && sccacheAvailable
  | none => sccacheAvailable

/-- `EnvVars` (cache.go lines 148-156), the implementation of the spec's
`build_env_vars`: the `CacheManager`'s `SccacheAvailable` field is passed
explicitly. -/
def EnvVars (sccacheAvailable : Bool) (cfg : BuildConfig) : List String :=
  if shouldEnableSccache sccacheAvailable cfg then ["RUSTC_WRAPPER=sccache"] else []

/-- Concrete artifact for witnesses: two key files, one key command. -/
def artKeyW : ArtifactConfig :=
  ⟨"cargo", [["Cargo.lock"], ["rust-toolchain"]], ["rustc --version"], [["target"]]⟩

/-- Concrete workspace reads for witnesses: `Cargo.lock` has one byte,
`rust-toolchain` is absent. -/
def readKeyW : List String → ReadResult :=
  fun g => if g = ["Cargo.lock"] then .ok [65] else .absent

/-- Concrete command runner for witnesses: every command prints one byte. -/
def runKeyW : String → Option (List Nat) := fun _ => some [66]

/-- Concrete artifact for the workspace-independence witness. -/
def artIndW : ArtifactConfig := ⟨"cargo", [["Cargo.lock"]], [], [["target"]]⟩

/-- First workspace of the independence witness. -/
def readIndW1 : List String → ReadResult := fun _ => .ok [7]

/-- Second workspace of the independence witness: agrees with the first on
the artifact's only key file, differs everywhere else. -/
def readIndW2 : List String → ReadResult :=
  fun g => if g = ["Cargo.lock"] then .ok [7] else .ioError

/-! ### Filesystem trees

A directory tree as the cache engine observes it.  Directory children are
an association list of (name, entry) pairs; regular files carry an inode
number so that hardlinks (`os.Link`, which shares the inode) are
distinguishable from byte copies (`copyFile`, which allocates a fresh one).
Symlinks store their literal target string, never resolved, matching the
engine's lstat-before-act discipline. -/

inductive FsEntry where
  | file (ino : Nat) (data : List Nat)
  | link (target : String)
  | dir (children : List (String × FsEntry))

/-- First child with the given name, as directory lookup finds it. -/
def findC : List (String × FsEntry) → String → Option FsEntry
  | [], _ => none
  | (m, e) :: rest, n => if m = n then some e else findC rest n

/-- Resolve a component path from an entry, descending through directories
only (no symlink resolution, as with `filepath.Join` + `os.Lstat`). -/
def lookupFs : List String → FsEntry → Option FsEntry
  | [], e => some e
  | n :: p, .dir cs =>
    match findC cs n with
    | some c => lookupFs p c
    | none => none
  | _ :: _, _ => none

/-- Is the entry a directory? -/
def isDirE : FsEntry → Bool
  | .dir _ => true
  | _ => false

/-- `dirExists` (cache.go lines 139-142): the path names an existing
directory. -/
def dirExists (t : FsEntry) (p : List String) : Bool :=
  match lookupFs p t with
  | some e => isDirE e
  | none => false

/-! ### Skip rules and the tree replicator (`SeedDirectory`) -/

/-- `shouldSkipCargoPath` (cache.go lines 224-238), over the relative path's
characters; the rule order mirrors the source. -/
def shouldSkipCargoPath (relPath : List Char) : Bool :=
  if ".o".data <:+ relPath then true
  else if ".d".data <:+ relPath then true
  else if "/incremental/".data <:+: relPath then true
  else if "incremental/".data <+: relPath then true
  else if relPath = ".cargo-lock".data then true
  else false

/-- `shouldSkipPath` (cache.go lines 215-222): only cargo has skip rules. -/
def shouldSkipPath (relPath : List Char) (artifactName : String) : Bool :=
  if artifactName = "cargo" then shouldSkipCargoPath relPath else false

/-- Extend an accumulated relative path by one component, the way
`filepath.Rel` renders deeper entries during the walk. -/
def childRel (rel : List Char) (nm : String) : List Char :=
  if rel.isEmpty then nm.data else rel ++ '/' :: nm.data

/-- The relative path string of a component list. -/
def relChars (q : List String) : List Char := q.foldl childRel []

/-- The tree produced at `dst` by a successful `SeedDirectory(src, dst, opts)`
walk (cache.go lines 285-458) on a fresh destination, child list by child
list: a directory whose relative path with trailing `/` matches a skip rule
is not descended into (`filepath.SkipDir`); a file or symlink whose
relative path matches a skip rule is not replicated; surviving symlinks are
recreated with their literal target and surviving files are hardlinked
(same inode, `linkOrCopyFile`, cache.go lines 460-493). -/
def seedChildren (art : String) (rel : List Char) : List (String × FsEntry) → List (String × FsEntry)
  | [] => []
  | (nm, FsEntry.dir cs) :: rest =>
    (if shouldSkipPath (childRel rel nm ++ ['/']) art then []
     else [(nm, FsEntry.dir (seedChildren art (childRel rel nm) cs))]) ++ seedChildren art rel rest
  | (nm, FsEntry.file ino d) :: rest =>
    (if shouldSkipPath (childRel rel nm) art then []
     else [(nm, FsEntry.file ino d)]) ++ seedChildren art rel rest
  | (nm, FsEntry.link tgt) :: rest =>
    (if shouldSkipPath (childRel rel nm) art then []
     else [(nm, FsEntry.link tgt)]) ++ seedChildren art rel rest

/-- `SeedDirectory` as a function from the source tree to the destination
tree it creates on success. -/
def SeedDirectory (art : String) : FsEntry → FsEntry
  | .dir cs => .dir (seedChildren art [] cs)
  | e => e

/-- Names of a directory's children are nonempty and pairwise distinct. -/
def namesOkB : List String → Bool
  | [] => true
  | n :: rest => !(n == "") && !(rest.any (fun m => m == n)) && namesOkB rest

/-- Well-formed tree: every directory's child names are nonempty and
pairwise distinct (what any real on-disk directory satisfies). -/
def wfFs : FsEntry → Bool
  | .file _ _ => true
  | .link _ => true
  | .dir cs => namesOkB (cs.map Prod.fst) && wfList cs
where wfList : List (String × FsEntry) → Bool
  | [] => true
  | (_, e) :: rest => wfFs e && wfList rest

/-! ### Primitive filesystem mutations

The syscall-level operations `moveToCache`, `StoreToCache` and `seedToCache`
compose.  Each mirrors the POSIX behaviour the Go standard library exposes:
`os.MkdirAll` creates missing directory chains and fails on a non-directory
component; `os.OpenFile(..., O_CREATE|O_RDWR, ...)` creates a missing file
and fails on a directory; `os.Rename` of a directory fails when the target
exists as a non-directory; `os.RemoveAll` removes whatever is there and
succeeds on a missing path. -/

/-- A chain of fresh empty directories. -/
def mkChain : List String → FsEntry
  | [] => .dir []
  | n :: p => .dir [(n, mkChain p)]

/-- Replace the first child with the given name, or append a new one. -/
def setChild : List (String × FsEntry) → String → FsEntry → List (String × FsEntry)
  | [], n, e => [(n, e)]
  | (m, f) :: rest, n, e => if m = n then (n, e) :: rest else (m, f) :: setChild rest n e

/-- Remove the first child with the given name. -/
def eraseChild : List (String × FsEntry) → String → List (String × FsEntry)
  | [], _ => []
  | (m, f) :: rest, n => if m = n then rest else (m, f) :: eraseChild rest n

/-- `os.MkdirAll`: ensure the path is a directory, creating missing
components; `none` on a non-directory component. -/
def mkdirAll : List String → FsEntry → Option FsEntry
  | [], e => if isDirE e then some e else none
  | n :: p, .dir cs =>
    match findC cs n with
    | some c => (mkdirAll p c).map (fun c' => .dir (setChild cs n c'))
    | none => some (.dir (setChild cs n (mkChain p)))
  | _ :: _, _ => none

/-- `os.OpenFile` with `O_CREATE|O_RDWR` at a path whose parent directories
must already exist: creates an empty file (inode 0 stands for lock files,
whose contents and identity the engine never reads), succeeds without
change on an existing regular file, fails otherwise. -/
def ensureFileAt : List String → FsEntry → Option FsEntry
  | [], _ => none
  | [n], .dir cs =>
    match findC cs n with
    | none => some (.dir (setChild cs n (.file 0 [])))
    | some (.file _ _) => some (.dir cs)
    | some _ => none
  | n :: p, .dir cs =>
    match findC cs n with
    | some c => (ensureFileAt p c).map (fun c' => .dir (setChild cs n c'))
    | none => none
  | _ :: _, _ => none

/-- Insert an entry at a path whose parent directories must already exist
and whose target must be absent (`os.Rename` destination / fresh creation);
`none` otherwise. -/
def placeNew : List String → FsEntry → FsEntry → Option FsEntry
  | [], _, _ => none
  | [n], e, .dir cs =>
    match findC cs n with
    | none => some (.dir (setChild cs n e))
    | some _ => none
  | n :: p, e, .dir cs =>
    match findC cs n with
    | some c => (placeNew p e c).map (fun c' => .dir (setChild cs n c'))
    | none => none
  | _, _, _ => none

/-- `os.RemoveAll`: drop the entry at the path if present. -/
def removeAt : List String → FsEntry → FsEntry
  | [], t => t
  | [n], .dir cs => .dir (eraseChild cs n)
  | n :: p, .dir cs =>
    match findC cs n with
    | some c => .dir (setChild cs n (removeAt p c))
    | none => .dir cs
  | _, t => t

/-! ### Sync and store -/

/-- The on-disk state `Sync`, `StoreToCache` and `SeedFromRoot` act on:
the workspace tree (rooted at `envPath`) and the project's local cache tree
(rooted at `cache_local/<project_id>`, whose children are
`<artifact_name>/<key>` entry directories and `<key>.lock` sidecar files). -/
structure SyncState where
  env : FsEntry
  cache : FsEntry

/-- Errors surfaced by the sync/store/seed paths. -/
inductive SyncErr where
  | buildInProgress (artifact : String)
  | keyFailed (artifact : String)
  | ioFailure
deriving DecidableEq

/-- `filepath.Base` of a component path. -/
def baseName (p : List String) : String := p.getLastD ""

/-- The sidecar lock file's name for a cache key (`cachePath + ".lock"`). -/
def lockName (k : String) : String := k ++ ".lock"

/-- `acquireCacheLock` (cache.go lines 724-742) acting on the cache tree:
`MkdirAll` on the lock file's parent, `OpenFile(O_CREATE|O_RDWR)`, then a
non-blocking `flock` whose availability is the `flockAvail` parameter.
Result: the mutated cache tree plus `none` for an I/O error, `some none`
for the null handle returned when the lock is held elsewhere (the file
stays created), and `some (some ())` for a held lock. -/
def acquireCacheLock (flockAvail : Bool) (n k : String) (cache : FsEntry) :
    FsEntry × Option (Option Unit) :=
  match mkdirAll [n] cache with
  | none => (cache, none)
  | some c1 =>
    match ensureFileAt [n, lockName k] c1 with
    | none => (c1, none)
    | some c2 => if flockAvail then (c2, some (some ())) else (c2, some none)

/-- `moveToCache` (cache.go lines 880-922) for one workspace path `p` and
cache entry `<n>/<k>`: acquire the advisory lock (a null handle is a silent
success), stop if the target inside the cache already exists, `MkdirAll`
the entry directory, `os.Rename` the workspace tree into
`<n>/<k>/<base(p)>`, and if `hardlinkBack` recreate the workspace tree as
hardlinks of the (unchanged, same-inode) cache subtree.  This function is
the same-device rename path; the cross-device `EXDEV → copyToCache`
branch of lines 900-903 is carried by `moveToCacheX` below, of which this
is the `xdev = false` case.  A hardlink-back failure would enter the
recovery path, which is unreachable for well-formed states and modelled as
a bare error. -/
def moveToCache (flockAvail : Bool) (n k : String) (p : List String) (hardlinkBack : Bool)
    (s : SyncState) : SyncState × Option SyncErr :=
  match acquireCacheLock flockAvail n k s.cache with
  | (c, none) => ({ s with cache := c }, some .ioFailure)
  | (c, some none) => ({ s with cache := c }, none)
  | (c, some (some _)) =>
    let s1 : SyncState := { s with cache := c }
    if dirExists s1.cache [n, k, baseName p] then (s1, none)
    else
      match mkdirAll [n, k] s1.cache with
      | none => (s1, some .ioFailure)
      | some c2 =>
        match lookupFs p s1.env with
        | none => ({ s1 with cache := c2 }, some .ioFailure)
        | some e =>
          match placeNew [n, k, baseName p] e c2 with
          | none => ({ s1 with cache := c2 }, some .ioFailure)
          | some c3 =>
            let env1 := removeAt p s1.env
            if hardlinkBack then
              match placeNew p e env1 with
              | some env2 => (⟨env2, c3⟩, none)
              | none => (⟨env1, c3⟩, some .ioFailure)
            else (⟨env1, c3⟩, none)

/-- The sequence of on-disk states a concurrent observer can see during
`moveToCache`, one entry per syscall-visible mutation step (the
lock-acquisition mutations are merged into one step; the rename is one
atomic step that simultaneously removes the workspace tree and makes it
appear inside the cache). -/
def moveToCacheTrace (flockAvail : Bool) (n k : String) (p : List String) (hardlinkBack : Bool)
    (s : SyncState) : List SyncState :=
  s ::
    match acquireCacheLock flockAvail n k s.cache with
    | (c, none) => [{ s with cache := c }]
    | (c, some none) => [{ s with cache := c }]
    | (c, some (some _)) =>
      let s1 : SyncState := { s with cache := c }
      s1 ::
        (if dirExists s1.cache [n, k, baseName p] then []
         else
           match mkdirAll [n, k] s1.cache with
           | none => []
           | some c2 =>
             let s2 : SyncState := { s1 with cache := c2 }
             s2 ::
               match lookupFs p s1.env with
               | none => []
               | some e =>
                 match placeNew [n, k, baseName p] e c2 with
                 | none => []
                 | some c3 =>
                   let s3 : SyncState := ⟨removeAt p s1.env, c3⟩
                   s3 ::
                     (if hardlinkBack then
                        match placeNew p e s3.env with
                        | some env2 => [⟨env2, c3⟩]
                        | none => []
                      else []))

/-- The per-path loop of `StoreToCache` (cache.go lines 701-715): move each
existing workspace path into the entry via `os.Rename`, then recreate it in
the workspace as hardlinks of the (same-inode) cache subtree. -/
def storeLoop (n k : String) : List (List String) → SyncState → SyncState × Option SyncErr
  | [], s => (s, none)
  | p :: rest, s =>
    if dirExists s.env p then
      match lookupFs p s.env with
      | none => (s, some .ioFailure)
      | some e =>
        match placeNew [n, k, baseName p] e s.cache with
        | none => (s, some .ioFailure)
        | some c1 =>
          let env1 := removeAt p s.env
          match placeNew p e env1 with
          | none => (⟨env1, c1⟩, some .ioFailure)
          | some env2 => storeLoop n k rest ⟨env2, c1⟩
    else storeLoop n k rest s

/-- `StoreToCache` (cache.go lines 696-718) for the entry `<n>/<k>`:
`MkdirAll` the entry directory, then rename each existing workspace path in
and hardlink it back. -/
def StoreToCache (n k : String) (paths : List (List String)) (s : SyncState) :
    SyncState × Option SyncErr :=
  match mkdirAll [n, k] s.cache with
  | none => (s, some .ioFailure)
  | some c1 => storeLoop n k paths { s with cache := c1 }

/-- Observable state sequence of `storeLoop`, one entry per mutation. -/
def storeLoopTrace (n k : String) : List (List String) → SyncState → List SyncState
  | [], _ => []
  | p :: rest, s =>
    if dirExists s.env p then
      match lookupFs p s.env with
      | none => []
      | some e =>
        match placeNew [n, k, baseName p] e s.cache with
        | none => []
        | some c1 =>
          let s1 : SyncState := ⟨removeAt p s.env, c1⟩
          s1 ::
            match placeNew p e s1.env with
            | none => []
            | some env2 => ⟨env2, c1⟩ :: storeLoopTrace n k rest ⟨env2, c1⟩
    else storeLoopTrace n k rest s

/-- Observable state sequence of `StoreToCache`. -/
def StoreToCacheTrace (n k : String) (paths : List (List String)) (s : SyncState) :
    List SyncState :=
  s ::
    match mkdirAll [n, k] s.cache with
    | none => []
    | some c1 => { s with cache := c1 } :: storeLoopTrace n k paths { s with cache := c1 }

/-- `seedToCache` (cache.go lines 1027-1047) for the entry `<n>/<k>` and one
source path with basename `base`: `MkdirAll` the entry directory, skip if
the target inside it exists, otherwise run `SeedDirectory`; `seedOk` is
whether that bulk replication succeeds (its failures — worker I/O errors
and watchdog timeouts — live outside the tree model).  On failure the
partially created target is removed best-effort (`os.RemoveAll`, its error
discarded) and the error is returned. -/
def seedToCache (seedOk : Bool) (art : String) (src : FsEntry) (base : String) (n k : String)
    (cache : FsEntry) : FsEntry × Option SyncErr :=
  match mkdirAll [n, k] cache with
  | none => (cache, some .ioFailure)
  | some c1 =>
    if dirExists c1 [n, k, base] then (c1, none)
    else if seedOk then
      match placeNew [n, k, base] (SeedDirectory art src) c1 with
      | some c2 => (c2, none)
      | none => (c1, some .ioFailure)
    else (removeAt [n, k, base] c1, some .ioFailure)

/-! ### The cross-device fallback (`copyToCache`) -/

/-- `copyDir` (cache.go lines 941-974): a recursive walk that recreates
directories, recreates symlinks with their literal targets, and byte-copies
regular files via `copyFile` — `os.Create` allocates a fresh inode, so the
copy threads an inode allocator. -/
def copyTree : FsEntry → Nat → FsEntry × Nat
  | .file _ d, next => (.file next d, next + 1)
  | .link t, next => (.link t, next)
  | .dir cs, next =>
    let r := copyChildren cs next
    (.dir r.1, r.2)
where copyChildren : List (String × FsEntry) → Nat → List (String × FsEntry) × Nat
  | [], next => ([], next)
  | (nm, e) :: rest, next =>
    let r1 := copyTree e next
    let r2 := copyChildren rest r1.2
    ((nm, r1.1) :: r2.1, r2.2)

/-- Result of `copyToCache`: the tree created inside the cache, what remains
at the workspace path (`none` after `os.RemoveAll`), and the inode
allocator. -/
structure CopyToCacheResult where
  cacheCopy : FsEntry
  workspace : Option FsEntry
  nextIno : Nat

/-- `copyToCache` (cache.go lines 924-934): walk-copy the workspace tree
into the cache; then, if `hardlinkBack`, return `nil` at once (the original
workspace tree is left in place untouched), else `os.RemoveAll` the
original. -/
def copyToCache (localTree : FsEntry) (next : Nat) (hardlinkBack : Bool) : CopyToCacheResult :=
  let r := copyTree localTree next
  if hardlinkBack then ⟨r.1, some localTree, r.2⟩ else ⟨r.1, none, r.2⟩

/-! ### `Sync` -/

/-- `isBuildInProgress` (cache.go lines 760-768): for cargo, the
build-in-progress marker `<envPath>/target/.cargo-lock` exists.  The
`fileExists` helper it calls is not among the sources; modelled from the
spec: "For cargo, `<workspace>/target/.cargo-lock` exists → true. Other
artifacts: false." -/
def isBuildInProgress (a : ArtifactConfig) (env : FsEntry) : Bool :=
  if a.Name = "cargo" then (lookupFs ["target", ".cargo-lock"] env).isSome else false

/-- Key-file reads against the workspace tree: a regular file yields its
bytes, a missing path is absent, and anything else (directory, symlink —
the model does not resolve link targets) is a read error. -/
def readEnv (env : FsEntry) (f : List String) : ReadResult :=
  match lookupFs f env with
  | some (.file _ d) => .ok d
  | some _ => .ioError
  | none => .absent

/-- The per-path loop of `syncArtifact` (cache.go lines 865-875): skip
workspace paths that do not exist as directories, stop at the first
`moveToCache` error. -/
def syncLoop (flockAvail : Bool) (n k : String) (hlb : Bool) :
    List (List String) → SyncState → SyncState × Option SyncErr
  | [], s => (s, none)
  | p :: rest, s =>
    if dirExists s.env p then
      match moveToCache flockAvail n k p hlb s with
      | (s', none) => syncLoop flockAvail n k hlb rest s'
      | (s', some e) => (s', some e)
    else syncLoop flockAvail n k hlb rest s

/-- `syncArtifact` (cache.go lines 849-878): refuse when a build is in
progress, compute the key, skip when the cache entry directory already
exists, else move each existing path into the cache. -/
def syncArtifact (runCmd : String → Option (List Nat)) (flockAvail hlb : Bool)
    (a : ArtifactConfig) (s : SyncState) : SyncState × Option SyncErr :=
  if isBuildInProgress a s.env then (s, some (.buildInProgress a.Name))
  else
    match ComputeCacheKey a (readEnv s.env) runCmd with
    | .error _ => (s, some (.keyFailed a.Name))
    | .ok k =>
      if dirExists s.cache [a.Name, k] then (s, none)
      else syncLoop flockAvail a.Name k hlb a.Paths s

/-- `Sync` (cache.go lines 751-758): sync each artifact in order, stopping
at the first error; the state reached so far persists. -/
def Sync (runCmd : String → Option (List Nat)) (flockAvail hlb : Bool) :
    List ArtifactConfig → SyncState → SyncState × Option SyncErr
  | [], s => (s, none)
  | a :: rest, s =>
    match syncArtifact runCmd flockAvail hlb a s with
    | (s', none) => Sync runCmd flockAvail hlb rest s'
    | (s', some e) => (s', some e)

/-! ### Content view and concrete fixtures -/

/-- A tree with its inode numbers erased: two trees with equal `stripInos`
images hold the same names, file bytes and link targets. -/
def stripInos : FsEntry → FsEntry
  | .file _ d => .file 0 d
  | .link t => .link t
  | .dir cs => .dir (stripList cs)
where stripList : List (String × FsEntry) → List (String × FsEntry)
  | [] => []
  | (nm, e) :: rest => (nm, stripInos e) :: stripList rest

/-- Workspace tree of the `copyToCache` counterexample: one file, inode 1. -/
def cexLocalC5 : FsEntry := .dir [("f", .file 1 [7])]

/-- What one walk entry contributes to the seeded tree: `none` when the
skip rules drop it, otherwise its replicated image. -/
def seedImage (art : String) (rel : List Char) (nm : String) : FsEntry → Option FsEntry
  | .dir ds =>
    if shouldSkipPath (childRel rel nm ++ ['/']) art then none
    else some (.dir (seedChildren art (childRel rel nm) ds))
  | .file i d => if shouldSkipPath (childRel rel nm) art then none else some (.file i d)
  | .link t => if shouldSkipPath (childRel rel nm) art then none else some (.link t)

/-- Source tree of the seed-tree counterexample: a symlink named `a.o`. -/
def srcCexC2 : FsEntry := .dir [("a.o", .link "t")]

/-- Workspace of the store counterexample: a cargo `target/` holding an
object file and a real artifact. -/
def stateCexC4 : SyncState :=
  ⟨.dir [("target", .dir [("a.o", .file 1 []), ("good.rlib", .file 2 [])])], .dir []⟩

/-- A well-formed source tree used by seed witnesses: `target/` with one
artifact, one object file, one symlink and an `incremental/` directory. -/
def srcSeedW : FsEntry :=
  .dir [("good.rlib", .file 3 [1]),
        ("a.o", .file 4 [2]),
        ("ln", .link "../real"),
        ("incremental", .dir [("c.rmeta", .file 5 [3])])]

/-- Pairwise-distinct strings (no emptiness requirement, unlike
`namesOkB`). -/
def nodupNames : List String → Bool
  | [] => true
  | n :: rest => !(rest.any (fun m => m == n)) && nodupNames rest

/-- Every directory in the tree has pairwise-distinct child names — the
well-formedness any on-disk tree enjoys, and all the sync-side proofs
need. -/
def nodupKeys : FsEntry → Bool
  | .file _ _ => true
  | .link _ => true
  | .dir cs => nodupNames (cs.map Prod.fst) && nodupList cs
where nodupList : List (String × FsEntry) → Bool
  | [] => true
  | (_, e) :: rest => nodupKeys e && nodupList rest

/-- Well-formedness of both halves of a sync state. -/
def nodupState (s : SyncState) : Bool := nodupKeys s.env && nodupKeys s.cache

/-- The name list produced by `setChild`, names only. -/
def setName : List String → String → List String
  | [], n => [n]
  | a :: r, n => if a = n then a :: r else a :: setName r n

/-- The name list produced by `eraseChild`, names only. -/
def eraseName : List String → String → List String
  | [], _ => []
  | a :: r, n => if a = n then r else a :: eraseName r n

/-- Initial state of the empty-entry-visibility counterexample: a workspace
`target/` tree and an empty cache. -/
def sCexC6 : SyncState := ⟨.dir [("target", .dir [("f", .file 1 [9])])], .dir []⟩

/-- The intermediate state of that run after `MkdirAll(cachePath)` and
before the rename: the entry directory exists and is empty. -/
def sCexC6mid : SyncState :=
  ⟨.dir [("target", .dir [("f", .file 1 [9])])],
   .dir [("cargo", .dir [("k0.lock", .file 0 []), ("k0", .dir [])])]⟩

/-! ### The cross-device branch of `moveToCache` -/

/-- The on-disk trees a concurrent reader can see inside the copy target
while `copyDir` (cache.go lines 941-974) fills it: `filepath.Walk` first
`MkdirAll`s the destination root (the walk's `"."` entry), so the target
appears as an empty directory, and then each top-level entry of the source
lands in walk order.  Only whole-top-level-entry boundaries are listed;
every listed tree is a state that really occurs on disk (the walk is
depth-first and the inode allocator is sequential, so copying a prefix of
the children yields exactly the corresponding prefix of the final copy).
A non-directory source is copied in one step. -/
def copyStages (e : FsEntry) (next : Nat) : List FsEntry :=
  match e with
  | .dir cs =>
    .dir [] :: (List.range cs.length).map (fun i => (copyTree (.dir (cs.take (i + 1))) next).1)
  | _ => [(copyTree e next).1]

/-- `moveToCache` (cache.go lines 880-922) including the cross-device
branch (lines 900-903): `xdev` says whether the workspace and the cache
live on different devices, in which case `os.Rename` fails with `EXDEV`
and `copyToCache` (lines 924-934) walk-copies the tree into the target
with fresh inodes (`copyDir`, lines 941-974, threading the allocator
`next`) and then, when `hardlinkBack` is not set, removes the workspace
original; with `hardlinkBack` set the original stays in place (see
`copyToCache_behavior`).  `moveToCache` is this function at
`xdev = false`. -/
def moveToCacheX (flockAvail xdev : Bool) (n k : String) (p : List String)
    (hardlinkBack : Bool) (next : Nat) (s : SyncState) : SyncState × Option SyncErr :=
  match acquireCacheLock flockAvail n k s.cache with
  | (c, none) => ({ s with cache := c }, some .ioFailure)
  | (c, some none) => ({ s with cache := c }, none)
  | (c, some (some _)) =>
    let s1 : SyncState := { s with cache := c }
    if dirExists s1.cache [n, k, baseName p] then (s1, none)
    else
      match mkdirAll [n, k] s1.cache with
      | none => (s1, some .ioFailure)
      | some c2 =>
        match lookupFs p s1.env with
        | none => ({ s1 with cache := c2 }, some .ioFailure)
        | some e =>
          if xdev then
            match placeNew [n, k, baseName p] (copyTree e next).1 c2 with
            | none => ({ s1 with cache := c2 }, some .ioFailure)
            | some c3 =>
              if hardlinkBack then ({ s1 with cache := c3 }, none)
              else (⟨removeAt p s1.env, c3⟩, none)
          else
            match placeNew [n, k, baseName p] e c2 with
            | none => ({ s1 with cache := c2 }, some .ioFailure)
            | some c3 =>
              let env1 := removeAt p s1.env
              if hardlinkBack then
                match placeNew p e env1 with
                | some env2 => (⟨env2, c3⟩, none)
                | none => (⟨env1, c3⟩, some .ioFailure)
              else (⟨env1, c3⟩, none)

/-- The sequence of on-disk states a concurrent observer can see during
`moveToCacheX`, one entry per syscall-visible mutation step.  On the
same-device path the rename is one atomic step; on the cross-device path
(`xdev`) the target instead goes through the incremental `copyStages`
(the workspace tree is still in place during the copy), followed — without
`hardlinkBack` — by the state after `os.RemoveAll` of the original. -/
def moveToCacheXTrace (flockAvail xdev : Bool) (n k : String) (p : List String)
    (hardlinkBack : Bool) (next : Nat) (s : SyncState) : List SyncState :=
  s ::
    match acquireCacheLock flockAvail n k s.cache with
    | (c, none) => [{ s with cache := c }]
    | (c, some none) => [{ s with cache := c }]
    | (c, some (some _)) =>
      let s1 : SyncState := { s with cache := c }
      s1 ::
        (if dirExists s1.cache [n, k, baseName p] then []
         else
           match mkdirAll [n, k] s1.cache with
           | none => []
           | some c2 =>
             let s2 : SyncState := { s1 with cache := c2 }
             s2 ::
               match lookupFs p s1.env with
               | none => []
               | some e =>
                 if xdev then
                   ((copyStages e next).filterMap
                     (fun part => (placeNew [n, k, baseName p] part c2).map
                       (fun cp => { s1 with cache := cp })))
                   ++ (if hardlinkBack then []
                       else
                         match placeNew [n, k, baseName p] (copyTree e next).1 c2 with
                         | some c3 => [⟨removeAt p s1.env, c3⟩]
                         | none => [])
                 else
                   match placeNew [n, k, baseName p] e c2 with
                   | none => []
                   | some c3 =>
                     let s3 : SyncState := ⟨removeAt p s1.env, c3⟩
                     s3 ::
                       (if hardlinkBack then
                          match placeNew p e s3.env with
                          | some env2 => [⟨env2, c3⟩]
                          | none => []
                        else []))

/-- The partial-copy state of the cross-device run on `sCexC6`: the copied
subtree `cargo/k0/target` already exists in the cache but is still empty,
while the workspace original is untouched. -/
def sCexC6xd : SyncState :=
  ⟨.dir [("target", .dir [("f", .file 1 [9])])],
   .dir [("cargo", .dir [("k0.lock", .file 0 []), ("k0", .dir [("target", .dir [])])])]⟩

/-! ### Fixtures and observational view for the sync-idempotence claim -/

/-- Idempotence counterexample, artifact `x`: its key file `dir/f` lies
beneath the tree that artifact `y` syncs away, and its own synced path is
`p1`. -/
def artC8x : ArtifactConfig := ⟨"x", [["dir", "f"]], [], [["p1"]]⟩

/-- Idempotence counterexample, artifact `y`: it syncs the directory
holding `x`'s key file. -/
def artC8y : ArtifactConfig := ⟨"y", [], [], [["dir"]]⟩

/-- Idempotence counterexample, initial state: `x`'s current key
(the 16-hex prefix of SHA-256 of the byte `0x01`, the content of `dir/f`)
is already cached, so run 1 skips `x`; `y`'s entry is not cached. -/
def sCexC8 : SyncState :=
  ⟨.dir [("dir", .dir [("f", .file 1 [1])]), ("p1", .dir [])],
   .dir [("x", .dir [("4bf5122f344554c5", .dir [])])]⟩

/-- No key commands are configured in the C8 fixtures, so the command
runner is never consulted. -/
def runC8 : String → Option (List Nat) := fun _ => none

/-- Witness state for the amended idempotence theorem: one workspace tree
`dir`, an empty cache. -/
def sC8w : SyncState := ⟨.dir [("dir", .dir [])], .dir []⟩

/-- What a single `lookupFs` observation reveals to the cache engine: file
contents, a symlink's target, or bare directory-ness.  (`readEnv`,
`dirExists` and the build-in-progress probe factor through this view; the
children of a looked-up directory are only ever inspected through further
`lookupFs` calls.) -/
inductive EntryObs where
  | fileO (d : List Nat)
  | linkO (tg : String)
  | dirO

/-- The observation a single lookup yields. -/
def entryView : FsEntry → EntryObs
  | .file _ d => .fileO d
  | .link tg => .linkO tg
  | .dir _ => .dirO

/-- Two workspace trees are observationally equivalent when every path
lookup yields the same observation.  `os.Rename`-ing a tree away and
hardlinking it back preserves this (the subtree returns under the same
name, merely at a different position in the parent directory's listing). -/
def envEquiv (t u : FsEntry) : Prop :=
  ∀ q : List String, (lookupFs q t).map entryView = (lookupFs q u).map entryView

end Mono

namespace Mono

/-- The embedded SHA-256 agrees with the standard test vector for the empty
message.  This pins the hash used throughout the development to real SHA-256. -/
theorem sha256_empty_vector :
    sha256 [] =
      [0xe3, 0xb0, 0xc4, 0x42, 0x98, 0xfc, 0x1c, 0x14, 0x9a, 0xfb, 0xf4, 0xc8,
       0x99, 0x6f, 0xb9, 0x24, 0x27, 0xae, 0x41, 0xe4, 0x64, 0x9b, 0x93, 0x4c,
       0xa4, 0x95, 0x99, 0x1b, 0x78, 0x52, 0xb8, 0x55] := by decide

/-- The embedded SHA-256 agrees with the standard test vector for `"abc"`. -/
theorem sha256_abc_vector :
    sha256 [97, 98, 99] =
      [0xba, 0x78, 0x16, 0xbf, 0x8f, 0x01, 0xcf, 0xea, 0x41, 0x41, 0x40, 0xde,
       0x5d, 0xae, 0x22, 0x23, 0xb0, 0x03, 0x61, 0xa3, 0x96, 0x17, 0x7a, 0x9c,
       0xb4, 0x10, 0xff, 0x61, 0xf2, 0x00, 0x15, 0xad] := by decide

/-- When no key file read gives a hard error, the key-file loop collects
exactly the concatenated contents of the files that exist, in list order. -/
theorem hashKeyFiles_eq (read : List String → ReadResult) :
    ∀ l : List (List String), (∀ f ∈ l, read f ≠ .ioError) →
      hashKeyFiles read l = .ok (l.filterMap (keyFileData read)).flatten := by
  intro l h
  induction l with
  | nil => simp [hashKeyFiles]
  | cons f rest ih =>
    have hf := h f (by simp)
    have hrest : ∀ g ∈ rest, read g ≠ .ioError := fun g hg => h g (by simp [hg])
    cases hr : read f with
    | absent => simp [hashKeyFiles, hr, keyFileData, ih hrest]
    | ioError => exact absurd hr hf
    | ok d => simp [hashKeyFiles, hr, keyFileData, ih hrest, Except.map]

/-- When every key command succeeds, the command loop collects exactly the
concatenated standard outputs, in list order. -/
theorem hashKeyCommands_eq (runCmd : String → Option (List Nat)) :
    ∀ l : List String, (∀ c ∈ l, (runCmd c).isSome) →
      hashKeyCommands runCmd l = .ok (l.filterMap runCmd).flatten := by
  intro l h
  induction l with
  | nil => simp [hashKeyCommands]
  | cons c rest ih =>
    have hc := h c (by simp)
    have hrest : ∀ c' ∈ rest, (runCmd c').isSome := fun c' hc' => h c' (by simp [hc'])
    cases hr : runCmd c with
    | none => rw [hr] at hc; simp at hc
    | some out => simp [hashKeyCommands, hr, ih hrest, Except.map]

/-- A key command exiting non-zero makes the command loop fail. -/
theorem hashKeyCommands_err (runCmd : String → Option (List Nat)) :
    ∀ l : List String, (∃ c ∈ l, runCmd c = none) →
      ∃ e, hashKeyCommands runCmd l = .error e := by
  intro l h
  induction l with
  | nil => simp at h
  | cons c rest ih =>
    by_cases hc : runCmd c = none
    · exact ⟨.keyCommandFailed c, by simp [hashKeyCommands, hc]⟩
    · obtain ⟨c', hc', hnone⟩ := h
      rcases List.mem_cons.mp hc' with rfl | hmem
      · exact absurd hnone hc
      · obtain ⟨e, he⟩ := ih ⟨c', hmem, hnone⟩
        cases hr : runCmd c with
        | none => exact absurd hr hc
        | some out => exact ⟨e, by simp [hashKeyCommands, hr, he, Except.map]⟩

/-- C1: for every artifact configuration, provided no key-file read fails
for a reason other than absence, `ComputeCacheKey` (a) returns the first 16
lowercase-hex characters of the SHA-256 digest of the byte concatenation of
the existing key-files' contents in list order (missing files skipped
silently) followed by the key-commands' captured standard output in list
order, whenever every key command succeeds; (b) is a hard error whenever
some key command exits non-zero; and (c) for an artifact with no readable
key-files and no key-commands returns the 16-hex prefix of the SHA-256 of
the empty string, which is the literal `"e3b0c44298fc1c14"`. -/
theorem ComputeCacheKey_spec (a : ArtifactConfig) (read : List String → ReadResult)
    (runCmd : String → Option (List Nat))
    (hfiles : ∀ f ∈ a.KeyFiles, read f ≠ .ioError) :
    ((∀ c ∈ a.KeyCommands, (runCmd c).isSome) →
      ComputeCacheKey a read runCmd =
        .ok (String.mk ((hexEncode (sha256 (specKeyBytes a read runCmd))).take 16)))
    ∧ ((∃ c ∈ a.KeyCommands, runCmd c = none) →
      ∃ e, ComputeCacheKey a read runCmd = .error e)
    ∧ ((∀ f ∈ a.KeyFiles, read f = .absent) → a.KeyCommands = [] →
      ComputeCacheKey a read runCmd = .ok "e3b0c44298fc1c14") := by
  refine ⟨fun hcmds => ?_, fun hbad => ?_, fun habs hnil => ?_⟩
  · rw [ComputeCacheKey, hashKeyFiles_eq read _ hfiles, hashKeyCommands_eq runCmd _ hcmds]
    rfl
  · obtain ⟨e, he⟩ := hashKeyCommands_err runCmd _ hbad
    rw [ComputeCacheKey, hashKeyFiles_eq read _ hfiles, he]
    exact ⟨e, rfl⟩
  · have hnone : ∀ f ∈ a.KeyFiles, keyFileData read f = none := by
      intro f hf; simp [keyFileData, habs f hf]
    have hfm : a.KeyFiles.filterMap (keyFileData read) = [] :=
      List.filterMap_eq_nil_iff.mpr hnone
    rw [ComputeCacheKey, hashKeyFiles_eq read _ hfiles, hnil, hfm]
    simp only [hashKeyCommands]
    have h0 : (([] : List (List Nat)).flatten ++ ([] : List Nat)) = [] := rfl
    rw [h0, sha256_empty_vector]
    exact congrArg Except.ok (by decide)

/-- Witness for `ComputeCacheKey_spec`: a two-file, one-command artifact in
which one key file is absent, evaluated concretely. -/
theorem ComputeCacheKey_spec_witness :
    (∀ f ∈ artKeyW.KeyFiles, readKeyW f ≠ .ioError)
    ∧ ((∀ c ∈ artKeyW.KeyCommands, (runKeyW c).isSome) →
      ComputeCacheKey artKeyW readKeyW runKeyW =
        .ok (String.mk ((hexEncode (sha256 (specKeyBytes artKeyW readKeyW runKeyW))).take 16))) := by
  refine ⟨?_, ?_⟩
  · simp [artKeyW, readKeyW]
  · exact (ComputeCacheKey_spec artKeyW readKeyW runKeyW (by simp [artKeyW, readKeyW])).1

/-- C10: the key-command contribution to `ComputeCacheKey` is independent of
the workspace: the command runner is a function of the command text alone
(the Go code passes neither a working directory nor an environment to
`exec.Command`), so two workspaces whose key files read identically
(including identical absence) yield identical keys. -/
theorem ComputeCacheKey_env_independent (a : ArtifactConfig)
    (read₁ read₂ : List String → ReadResult) (runCmd : String → Option (List Nat))
    (h : ∀ f ∈ a.KeyFiles, read₁ f = read₂ f) :
    ComputeCacheKey a read₁ runCmd = ComputeCacheKey a read₂ runCmd := by
  have hfiles : ∀ l : List (List String), (∀ f ∈ l, read₁ f = read₂ f) →
      hashKeyFiles read₁ l = hashKeyFiles read₂ l := by
    intro l hl
    induction l with
    | nil => rfl
    | cons f rest ih =>
      have hf := hl f (by simp)
      have hrest : ∀ g ∈ rest, read₁ g = read₂ g := by
        intro g hg
        exact hl g (List.mem_cons_of_mem _ hg)
      simp only [hashKeyFiles, hf, ih hrest]
  rw [ComputeCacheKey, ComputeCacheKey, hfiles a.KeyFiles h]

/-- Witness for `ComputeCacheKey_env_independent`: two distinct read
functions that agree on the artifact's single key file. -/
theorem ComputeCacheKey_env_independent_witness :
    (∀ f ∈ artIndW.KeyFiles, readIndW1 f = readIndW2 f)
    ∧ ComputeCacheKey artIndW readIndW1 runKeyW = ComputeCacheKey artIndW readIndW2 runKeyW := by
  refine ⟨?_, ?_⟩
  · simp [artIndW, readIndW1, readIndW2]
  · exact ComputeCacheKey_env_independent artIndW readIndW1 readIndW2 runKeyW
      (by simp [artIndW, readIndW1, readIndW2])

/-- C3 (code bug): `EnvVars` as implemented contributes at most
`RUSTC_WRAPPER=sccache`, never `CARGO_HOME`, `npm_config_cache`,
`YARN_CACHE_FOLDER`, `PNPM_HOME` or `SCCACHE_DIR`; and it ignores the
configured strategy, contributing `RUSTC_WRAPPER=sccache` even when the
strategy is `"none"` (the failing input), contradicting the spec and the
in-repo design document. -/
theorem EnvVars_code_behavior :
    (∀ (avail : Bool) (cfg : BuildConfig),
      EnvVars avail cfg = [] ∨ EnvVars avail cfg = ["RUSTC_WRAPPER=sccache"])
    ∧ EnvVars true ⟨"none", true, none⟩ = ["RUSTC_WRAPPER=sccache"]
    ∧ EnvVars true ⟨"layered", true, none⟩ = ["RUSTC_WRAPPER=sccache"] := by
  refine ⟨fun avail cfg => ?_, by decide, by decide⟩
  by_cases h : shouldEnableSccache avail cfg
  · exact Or.inr (by simp [EnvVars, h])
  · exact Or.inl (by simp [EnvVars, h])

/-- Structural induction over filesystem trees with a membership-based
hypothesis for directory children. -/
theorem fsInd {motive : FsEntry → Prop}
    (hfile : ∀ i d, motive (.file i d))
    (hlink : ∀ t, motive (.link t))
    (hdir : ∀ cs, (∀ nm e, (nm, e) ∈ cs → motive e) → motive (.dir cs)) :
    ∀ t, motive t
  | .file i d => hfile i d
  | .link t => hlink t
  | .dir cs =>
    hdir cs (fun nm e he =>
      have : sizeOf e < 1 + sizeOf cs := by
        have h1 := List.sizeOf_lt_of_mem he
        simp only [Prod.mk.sizeOf_spec] at h1
        omega
      fsInd hfile hlink hdir e)
termination_by t => sizeOf t

/-- `copyTree` preserves everything but inode numbers. -/
theorem stripInos_copyTree : ∀ (t : FsEntry) (n : Nat), stripInos (copyTree t n).1 = stripInos t := by
  intro t
  induction t using fsInd with
  | hfile i d => intro n; rfl
  | hlink tg => intro n; rfl
  | hdir cs ih =>
    intro n
    suffices h : ∀ (cs' : List (String × FsEntry)),
        (∀ nm e, (nm, e) ∈ cs' → ∀ m, stripInos (copyTree e m).1 = stripInos e) →
        ∀ m, stripInos.stripList (copyTree.copyChildren cs' m).1 = stripInos.stripList cs' by
      simp only [copyTree, stripInos]
      exact congrArg FsEntry.dir (h cs ih n)
    intro cs' hcs'
    induction cs' with
    | nil => intro m; rfl
    | cons hd tl ihl =>
      intro m
      obtain ⟨nm, e⟩ := hd
      have he := hcs' nm e (by simp)
      have htl : ∀ nm' e', (nm', e') ∈ tl → ∀ m', stripInos (copyTree e' m').1 = stripInos e' :=
        fun nm' e' h' m' => hcs' nm' e' (by simp [h']) m'
      simp only [copyTree.copyChildren, stripInos.stripList, he, ihl htl]

/-- C5 counterexample: on the cross-device path with `hardlink_back` true,
`copyToCache` does not hardlink the cache copy back into the workspace —
the workspace keeps the original tree (inode 1) while the cache copy holds
a freshly allocated inode (2), so the workspace is not a hardlink image of
the cache copy as the claim states. -/
theorem copyToCache_cex :
    (copyToCache cexLocalC5 2 true).workspace = some (.dir [("f", .file 1 [7])])
    ∧ (copyToCache cexLocalC5 2 true).cacheCopy = .dir [("f", .file 2 [7])]
    ∧ (copyToCache cexLocalC5 2 true).workspace ≠
        some (copyToCache cexLocalC5 2 true).cacheCopy := by
  refine ⟨?_, ?_, ?_⟩
  · simp [copyToCache, copyTree, copyTree.copyChildren, cexLocalC5]
  · simp [copyToCache, copyTree, copyTree.copyChildren, cexLocalC5]
  · simp [copyToCache, copyTree, copyTree.copyChildren, cexLocalC5]

/-- C5 (amended): on a cross-device rename error the tree is walk-copied
into the cache (same names, bytes and link targets, fresh inodes); then, if
`opts.hardlink_back` is true the original workspace tree is left in place
untouched (no hardlinking back occurs — and none is possible across
devices); if it is false the original workspace tree is removed via
`remove_all`. -/
theorem copyToCache_behavior (t : FsEntry) (next : Nat) :
    (copyToCache t next true).workspace = some t
    ∧ (copyToCache t next false).workspace = none
    ∧ ∀ b : Bool, stripInos (copyToCache t next b).cacheCopy = stripInos t := by
  refine ⟨rfl, rfl, fun b => ?_⟩
  cases b <;> simp [copyToCache, stripInos_copyTree]

/-- Directory-name well-formedness: every listed name is nonempty. -/
theorem namesOkB_ne_empty {l : List String} (h : namesOkB l = true) {n : String}
    (hn : n ∈ l) : n ≠ "" := by
  induction l with
  | nil => simp at hn
  | cons m rest ih =>
    simp only [namesOkB, Bool.and_eq_true, Bool.not_eq_true'] at h
    rcases List.mem_cons.mp hn with rfl | hmem
    · intro hcon
      rw [hcon] at h
      simp at h
    · exact ih h.2 hmem

/-- Directory-name well-formedness: tails remain well-formed. -/
theorem namesOkB_tail {m : String} {rest : List String} (h : namesOkB (m :: rest) = true) :
    namesOkB rest = true := by
  simp only [namesOkB, Bool.and_eq_true] at h
  exact h.2

/-- Directory-name well-formedness: the head name occurs nowhere else. -/
theorem namesOkB_head_not_mem {m : String} {rest : List String}
    (h : namesOkB (m :: rest) = true) : m ∉ rest := by
  simp only [namesOkB, Bool.and_eq_true, Bool.not_eq_true'] at h
  intro hmem
  have := List.any_eq_false.mp h.1.2 m hmem
  simp at this

/-- `findC` finds a stored pair. -/
theorem findC_mem {cs : List (String × FsEntry)} {n : String} {e : FsEntry}
    (h : findC cs n = some e) : (n, e) ∈ cs := by
  induction cs with
  | nil => simp [findC] at h
  | cons hd tl ih =>
    obtain ⟨m, x⟩ := hd
    by_cases hm : m = n
    · subst hm
      have hx : x = e := by simpa [findC] using h
      subst hx
      exact List.mem_cons_self _ _
    · simp only [findC, if_neg hm] at h
      exact List.mem_cons_of_mem _ (ih h)

/-- `findC` misses exactly the absent names. -/
theorem findC_none_iff {cs : List (String × FsEntry)} {n : String} :
    findC cs n = none ↔ n ∉ cs.map Prod.fst := by
  induction cs with
  | nil => simp [findC]
  | cons hd tl ih =>
    obtain ⟨m, x⟩ := hd
    by_cases hm : m = n
    · subst hm; simp [findC]
    · rw [show findC ((m, x) :: tl) n = findC tl n from by simp [findC, hm], ih]
      simp only [List.map_cons, List.mem_cons]
      constructor
      · intro h1
        push_neg
        exact ⟨fun he => hm he.symm, h1⟩
      · intro h1
        push_neg at h1
        exact h1.2

/-- Children of a well-formed directory list are well-formed. -/
theorem wfList_mem : ∀ {cs : List (String × FsEntry)} {nm : String} {e : FsEntry},
    wfFs.wfList cs = true → (nm, e) ∈ cs → wfFs e = true := by
  intro cs
  induction cs with
  | nil => intro nm e _ h; simp at h
  | cons hd tl ih =>
    intro nm e hwf hmem
    obtain ⟨m, x⟩ := hd
    simp only [wfFs.wfList, Bool.and_eq_true] at hwf
    rcases List.mem_cons.mp hmem with heq | hmem'
    · cases heq; exact hwf.1
    · exact ih hwf.2 hmem'

/-- A well-formed directory has well-formed names. -/
theorem wf_dir_names {cs : List (String × FsEntry)} (h : wfFs (.dir cs) = true) :
    namesOkB (cs.map Prod.fst) = true := by
  simp only [wfFs, Bool.and_eq_true] at h
  exact h.1

/-- A well-formed directory has a well-formed child list. -/
theorem wf_dir_list {cs : List (String × FsEntry)} (h : wfFs (.dir cs) = true) :
    wfFs.wfList cs = true := by
  simp only [wfFs, Bool.and_eq_true] at h
  exact h.2

/-- Every name appearing in a seeded child list appears in the source. -/
theorem seedChildren_name_mem {art : String} {rel : List Char} :
    ∀ {cs : List (String × FsEntry)} {nm : String} {e' : FsEntry},
      (nm, e') ∈ seedChildren art rel cs → nm ∈ cs.map Prod.fst := by
  intro cs
  induction cs with
  | nil => intro nm e' h; simp [seedChildren] at h
  | cons hd tl ih =>
    intro nm e' h
    obtain ⟨m, x⟩ := hd
    cases x with
    | dir ds =>
      simp only [seedChildren] at h
      rcases List.mem_append.mp h with h1 | h2
      · split at h1
        · simp at h1
        · simp at h1; simp [h1.1]
      · simp [ih h2]
    | file i d =>
      simp only [seedChildren] at h
      rcases List.mem_append.mp h with h1 | h2
      · split at h1
        · simp at h1
        · simp at h1; simp [h1.1]
      · simp [ih h2]
    | link t =>
      simp only [seedChildren] at h
      rcases List.mem_append.mp h with h1 | h2
      · split at h1
        · simp at h1
        · simp at h1; simp [h1.1]
      · simp [ih h2]

/-- Seeding introduces no names that were absent from the source. -/
theorem findC_seedChildren_none {art : String} {rel : List Char}
    {cs : List (String × FsEntry)} {n : String} (h : findC cs n = none) :
    findC (seedChildren art rel cs) n = none := by
  cases hs : findC (seedChildren art rel cs) n with
  | none => rfl
  | some e =>
    have hmem := seedChildren_name_mem (findC_mem hs)
    exact absurd hmem (findC_none_iff.mp h)

/-- In a directory with well-formed names, seeding maps each found child to
its `seedImage`. -/
theorem findC_seedChildren {art : String} {rel : List Char} :
    ∀ {cs : List (String × FsEntry)} {n : String} {x : FsEntry},
      namesOkB (cs.map Prod.fst) = true →
      findC cs n = some x →
      findC (seedChildren art rel cs) n = seedImage art rel n x := by
  intro cs
  induction cs with
  | nil => intro n x _ h; simp [findC] at h
  | cons hd tl ih =>
    intro n x hok h
    obtain ⟨m, y⟩ := hd
    have hok' : namesOkB (tl.map Prod.fst) = true := namesOkB_tail (by simpa using hok)
    by_cases hm : m = n
    · subst hm
      have hx : y = x := by simpa [findC] using h
      subst hx
      have hnot : m ∉ tl.map Prod.fst := namesOkB_head_not_mem (by simpa using hok)
      have htlnone : findC (seedChildren art rel tl) m = none :=
        findC_seedChildren_none (findC_none_iff.mpr hnot)
      cases y with
      | dir ds =>
        by_cases hskip : shouldSkipPath (childRel rel m ++ ['/']) art = true
        · simp [seedChildren, hskip, seedImage, htlnone]
        · simp only [Bool.not_eq_true] at hskip
          simp [seedChildren, hskip, seedImage, findC]
      | file i d =>
        by_cases hskip : shouldSkipPath (childRel rel m) art = true
        · simp [seedChildren, hskip, seedImage, htlnone]
        · simp only [Bool.not_eq_true] at hskip
          simp [seedChildren, hskip, seedImage, findC]
      | link t =>
        by_cases hskip : shouldSkipPath (childRel rel m) art = true
        · simp [seedChildren, hskip, seedImage, htlnone]
        · simp only [Bool.not_eq_true] at hskip
          simp [seedChildren, hskip, seedImage, findC]
    · have h' : findC tl n = some x := by simpa [findC, hm] using h
      have hrec := ih hok' h'
      cases y with
      | dir ds =>
        by_cases hskip : shouldSkipPath (childRel rel m ++ ['/']) art = true
        · simpa [seedChildren, hskip] using hrec
        · simp only [Bool.not_eq_true] at hskip
          simpa [seedChildren, hskip, findC, hm] using hrec
      | file i d =>
        by_cases hskip : shouldSkipPath (childRel rel m) art = true
        · simpa [seedChildren, hskip] using hrec
        · simp only [Bool.not_eq_true] at hskip
          simpa [seedChildren, hskip, findC, hm] using hrec
      | link t =>
        by_cases hskip : shouldSkipPath (childRel rel m) art = true
        · simpa [seedChildren, hskip] using hrec
        · simp only [Bool.not_eq_true] at hskip
          simpa [seedChildren, hskip, findC, hm] using hrec

/-- Inverse direction: anything found in a seeded directory is the image of
a source child. -/
theorem findC_seedChildren_inv {art : String} {rel : List Char}
    {cs : List (String × FsEntry)} {n : String} {y : FsEntry}
    (hok : namesOkB (cs.map Prod.fst) = true)
    (h : findC (seedChildren art rel cs) n = some y) :
    ∃ x, findC cs n = some x ∧ seedImage art rel n x = some y := by
  cases hf : findC cs n with
  | none =>
    rw [findC_seedChildren_none hf] at h
    exact absurd h (by simp)
  | some x =>
    rw [findC_seedChildren hok hf] at h
    exact ⟨x, rfl, h⟩

/-- A nonempty relative path stays nonempty when extended. -/
theorem childRel_ne_nil {rel : List Char} {nm : String} (h : rel ≠ []) :
    childRel rel nm ≠ [] := by
  cases rel with
  | nil => exact absurd rfl h
  | cons a b => simp [childRel]

/-- Walking deeper extends the relative path string beyond its trailing
slash. -/
theorem foldl_childRel_pre :
    ∀ (l : List String) (base : List Char), l ≠ [] → base ≠ [] →
      (base ++ ['/']) <+: l.foldl childRel base := by
  intro l
  induction l with
  | nil => intro base h _; exact absurd rfl h
  | cons n l' ih =>
    intro base _ hb
    have hstep : childRel base n = base ++ '/' :: n.data := by
      cases base with
      | nil => exact absurd rfl hb
      | cons a b => simp [childRel]
    by_cases hl' : l' = []
    · subst hl'
      simp only [List.foldl, hstep]
      exact ⟨n.data, by simp⟩
    · have hbase' : childRel base n ≠ [] := childRel_ne_nil hb
      have h1 := ih (childRel base n) hl' hbase'
      have h2 : (base ++ ['/']) <+: childRel base n := by
        rw [hstep]
        exact ⟨n.data, by simp⟩
      have h3 : childRel base n <+: childRel base n ++ ['/'] := ⟨['/'], rfl⟩
      exact (h2.trans h3).trans h1

/-- The cargo skip predicate, spelled out. -/
theorem shouldSkipCargoPath_iff {t : List Char} :
    shouldSkipCargoPath t = true ↔
      (".o".data <:+ t) ∨ (".d".data <:+ t) ∨ ("/incremental/".data <:+: t) ∨
      ("incremental/".data <+: t) ∨ t = ".cargo-lock".data := by
  unfold shouldSkipCargoPath
  repeat' split
  all_goals simp_all

/-- A list ending in a non-slash character is not a suffix of a list ending
in a slash. -/
theorem not_suffix_of_slash (c : Char) {l r : List Char} (hc : c ≠ '/')
    (h : (l ++ [c]) <:+ (r ++ ['/'])) : False := by
  obtain ⟨pre, hpre⟩ := h
  have h1 := congrArg List.getLast? hpre
  rw [show pre ++ (l ++ [c]) = (pre ++ l) ++ [c] from by simp] at h1
  rw [List.getLast?_concat, List.getLast?_concat] at h1
  exact hc (by simpa using h1)

/-- A skip rule that fires on a directory's relative path (with trailing
slash) also fires on every deeper relative path. -/
theorem skip_dir_extends {art : String} {r t : List Char}
    (hpre : (r ++ ['/']) <+: t)
    (h : shouldSkipPath (r ++ ['/']) art = true) :
    shouldSkipPath t art = true := by
  by_cases hc : art = "cargo"
  · subst hc
    simp only [shouldSkipPath, if_pos rfl, if_true] at h ⊢
    rw [shouldSkipCargoPath_iff] at h ⊢
    rcases h with h1 | h2 | h3 | h4 | h5
    · exact absurd (show (['.'] ++ ['o']) <:+ r ++ ['/'] from h1)
        (fun hx => not_suffix_of_slash 'o' (by decide) hx)
    · exact absurd (show (['.'] ++ ['d']) <:+ r ++ ['/'] from h2)
        (fun hx => not_suffix_of_slash 'd' (by decide) hx)
    · exact Or.inr (Or.inr (Or.inl (h3.trans hpre.isInfix)))
    · exact Or.inr (Or.inr (Or.inr (Or.inl (h4.trans hpre))))
    · exfalso
      have h1 := congrArg List.getLast? h5
      rw [List.getLast?_concat] at h1
      simp at h1
  · simp [shouldSkipPath, hc] at h

/-- A nonempty name has nonempty characters. -/
theorem string_data_ne {n : String} (h : n ≠ "") : n.data ≠ [] :=
  fun hd => h (String.ext (by simp [hd]))

/-- Presence: a non-directory source entry whose relative path no skip rule
matches is replicated verbatim at its mirrored path (`rel` accumulates the
walk prefix). -/
theorem lookupFs_seed_keep (art : String) :
    ∀ (q : List String) (cs : List (String × FsEntry)) (rel : List Char) (e : FsEntry),
      wfFs (.dir cs) = true →
      lookupFs q (.dir cs) = some e →
      (∀ ds, e ≠ .dir ds) →
      shouldSkipPath (q.foldl childRel rel) art = false →
      lookupFs q (.dir (seedChildren art rel cs)) = some e := by
  intro q
  induction q with
  | nil =>
    intro cs rel e _ hl hnd _
    have he : FsEntry.dir cs = e := by simpa [lookupFs] using hl
    exact absurd he.symm (hnd cs)
  | cons n q' ih =>
    intro cs rel e hwf hl hnd hskip
    simp only [lookupFs] at hl
    cases hf : findC cs n with
    | none => rw [hf] at hl; exact absurd hl (by simp)
    | some x =>
      rw [hf] at hl
      have hok := wf_dir_names hwf
      have hxwf : wfFs x = true := wfList_mem (wf_dir_list hwf) (findC_mem hf)
      have hne : n ≠ "" :=
        namesOkB_ne_empty hok (List.mem_map_of_mem Prod.fst (findC_mem hf))
      have hbase : childRel rel n ≠ [] := by
        cases rel with
        | nil => simpa [childRel] using string_data_ne hne
        | cons a b => exact childRel_ne_nil (by simp)
      cases x with
      | file i d =>
        cases q' with
        | nil =>
          have he : FsEntry.file i d = e := by simpa [lookupFs] using hl
          subst he
          simp only [lookupFs]
          rw [findC_seedChildren hok hf]
          have hs : shouldSkipPath (childRel rel n) art = false := hskip
          simp [seedImage, hs, lookupFs]
        | cons m q'' => simp [lookupFs] at hl
      | link t =>
        cases q' with
        | nil =>
          have he : FsEntry.link t = e := by simpa [lookupFs] using hl
          subst he
          simp only [lookupFs]
          rw [findC_seedChildren hok hf]
          have hs : shouldSkipPath (childRel rel n) art = false := hskip
          simp [seedImage, hs, lookupFs]
        | cons m q'' => simp [lookupFs] at hl
      | dir ds =>
        cases q' with
        | nil =>
          have he : FsEntry.dir ds = e := by simpa [lookupFs] using hl
          exact absurd he.symm (hnd ds)
        | cons m q'' =>
          have hq' : (m :: q'') ≠ ([] : List String) := by simp
          have hskip' : shouldSkipPath ((m :: q'').foldl childRel (childRel rel n)) art = false :=
            hskip
          have hdirskip : shouldSkipPath (childRel rel n ++ ['/']) art = false := by
            by_contra hcon
            simp only [Bool.not_eq_false] at hcon
            have hpre := foldl_childRel_pre (m :: q'') (childRel rel n) hq' hbase
            have hext := skip_dir_extends hpre hcon
            rw [hext] at hskip'
            exact absurd hskip' (by simp)
          simp only [lookupFs]
          rw [findC_seedChildren hok hf]
          simp only [seedImage, hdirskip, Bool.false_eq_true, if_false]
          exact ih ds (childRel rel n) e hxwf hl hnd hskip'

/-- A nonempty proper prefix of a singleton list does not exist. -/
theorem prefix_of_singleton {α : Type} {r : List α} {a : α} (h : r <+: [a])
    (h1 : r ≠ []) (h2 : r ≠ [a]) : False := by
  obtain ⟨t, ht⟩ := h
  cases r with
  | nil => exact h1 rfl
  | cons rn r' =>
    simp only [List.cons_append, List.cons.injEq] at ht
    obtain ⟨h3, h4⟩ := ht
    obtain ⟨h5, h6⟩ := List.append_eq_nil.mp h4
    exact h2 (by simp [h3, h5])

/-- Soundness: anything found in the seeded tree existed at the same path in
the source; the skip rules fired neither on any proper directory prefix nor
(for non-directories) on the entry's own relative path. -/
theorem lookupFs_seed_sound (art : String) :
    ∀ (q : List String) (cs : List (String × FsEntry)) (rel : List Char) (e : FsEntry),
      wfFs (.dir cs) = true →
      lookupFs q (.dir (seedChildren art rel cs)) = some e →
      q ≠ [] →
      (∀ r, r ≠ [] → r <+: q → r ≠ q →
        shouldSkipPath (r.foldl childRel rel ++ ['/']) art = false)
      ∧ ((∀ ds, e ≠ .dir ds) →
        shouldSkipPath (q.foldl childRel rel) art = false
        ∧ lookupFs q (.dir cs) = some e) := by
  intro q
  induction q with
  | nil => intro cs rel e _ _ hq; exact absurd rfl hq
  | cons n q' ih =>
    intro cs rel e hwf hl _
    have hok := wf_dir_names hwf
    simp only [lookupFs] at hl
    cases hf : findC (seedChildren art rel cs) n with
    | none => rw [hf] at hl; exact absurd hl (by simp)
    | some y =>
      rw [hf] at hl
      obtain ⟨x, hx, himg⟩ := findC_seedChildren_inv hok hf
      have hxwf : wfFs x = true := wfList_mem (wf_dir_list hwf) (findC_mem hx)
      cases x with
      | file i d =>
        have hs : shouldSkipPath (childRel rel n) art = false := by
          by_contra hcon
          simp only [Bool.not_eq_false] at hcon
          simp [seedImage, hcon] at himg
        have hy : y = .file i d := by
          simp [seedImage, hs] at himg
          exact himg.symm
        subst hy
        cases q' with
        | nil =>
          have he : FsEntry.file i d = e := by simpa [lookupFs] using hl
          subst he
          refine ⟨?_, fun _ => ⟨hs, ?_⟩⟩
          · intro r hr hpre hne
            exact absurd (prefix_of_singleton hpre hr hne) (by simp)
          · simp [lookupFs, hx]
        | cons m q'' => simp [lookupFs] at hl
      | link t =>
        have hs : shouldSkipPath (childRel rel n) art = false := by
          by_contra hcon
          simp only [Bool.not_eq_false] at hcon
          simp [seedImage, hcon] at himg
        have hy : y = .link t := by
          simp [seedImage, hs] at himg
          exact himg.symm
        subst hy
        cases q' with
        | nil =>
          have he : FsEntry.link t = e := by simpa [lookupFs] using hl
          subst he
          refine ⟨?_, fun _ => ⟨hs, ?_⟩⟩
          · intro r hr hpre hne
            exact absurd (prefix_of_singleton hpre hr hne) (by simp)
          · simp [lookupFs, hx]
        | cons m q'' => simp [lookupFs] at hl
      | dir ds =>
        have hs : shouldSkipPath (childRel rel n ++ ['/']) art = false := by
          by_contra hcon
          simp only [Bool.not_eq_false] at hcon
          simp [seedImage, hcon] at himg
        have hy : y = .dir (seedChildren art (childRel rel n) ds) := by
          simp [seedImage, hs] at himg
          exact himg.symm
        subst hy
        cases q' with
        | nil =>
          have he : e = .dir (seedChildren art (childRel rel n) ds) := by
            simpa [lookupFs] using hl.symm
          refine ⟨?_, fun hnd => absurd he (hnd _)⟩
          intro r hr hpre hne
          exact absurd (prefix_of_singleton hpre hr hne) (by simp)
        | cons m q'' =>
          have hrec := ih ds (childRel rel n) e hxwf hl (by simp)
          refine ⟨?_, fun hnd => ⟨(hrec.2 hnd).1, ?_⟩⟩
          · intro r hr hpre hne
            cases r with
            | nil => exact absurd rfl hr
            | cons rn r' =>
              have hrn : rn = n := (List.cons_prefix_cons.mp hpre).1
              subst hrn
              have hpre' : r' <+: (m :: q'') := (List.cons_prefix_cons.mp hpre).2
              cases hr' : r' with
              | nil => simpa using hs
              | cons a b =>
                rw [hr'] at hpre'
                have := hrec.1 (a :: b) (by simp) hpre' (by
                  intro hcon
                  exact hne (by rw [hr', hcon]))
                simpa using this
          · simp only [lookupFs, hx]
            exact (hrec.2 hnd).2

/-- No skip rule matches the empty relative path. -/
theorem shouldSkipPath_nil (art : String) : shouldSkipPath [] art = false := by
  by_cases hc : art = "cargo"
  · simp only [shouldSkipPath, hc, if_pos rfl, if_true]
    decide
  · simp [shouldSkipPath, hc]

/-- C2 counterexample: for the cargo artifact, a source symlink named `a.o`
matches a skip rule and is not replicated, refuting the claim's
unconditional symlink clause. -/
theorem seed_symlink_skipped_cex :
    lookupFs ["a.o"] srcCexC2 = some (.link "t")
    ∧ shouldSkipPath (relChars ["a.o"]) "cargo" = true
    ∧ lookupFs ["a.o"] (SeedDirectory "cargo" srcCexC2) = none := by
  refine ⟨rfl, by decide, ?_⟩
  have h1 : shouldSkipPath (childRel [] "a.o") "cargo" = true := by decide
  simp [srcCexC2, SeedDirectory, seedChildren, h1, lookupFs, findC]

/-- C2 (amended): after a successful seed of a well-formed source tree:
every regular file whose relative path no skip rule matches exists (same
inode, same bytes) at the mirrored path in the destination; every symlink
*whose relative path no skip rule matches* (the amendment — the claim
stated this unconditionally) exists with an equal target string; and
nothing, in particular no file, appears at any path lying strictly below a
prefix on which a directory skip rule fired. -/
theorem SeedDirectory_mirrors (art : String) (src : FsEntry) (hwf : wfFs src = true) :
    (∀ q i d, lookupFs q src = some (.file i d) →
      shouldSkipPath (relChars q) art = false →
      lookupFs q (SeedDirectory art src) = some (.file i d))
    ∧ (∀ q t, lookupFs q src = some (.link t) →
      shouldSkipPath (relChars q) art = false →
      lookupFs q (SeedDirectory art src) = some (.link t))
    ∧ (∀ q r, r ≠ [] → r <+: q → r ≠ q →
      shouldSkipPath (relChars r ++ ['/']) art = true →
      lookupFs q (SeedDirectory art src) = none) := by
  cases src with
  | file i' d' =>
    refine ⟨fun q i d hl _ => ?_, fun q t hl _ => ?_, fun q r hr hpre hne hskip => ?_⟩
    · cases q with
      | nil => simpa [SeedDirectory, lookupFs] using hl
      | cons n q' => simp [lookupFs] at hl
    · cases q with
      | nil => simp [lookupFs] at hl
      | cons n q' => simp [lookupFs] at hl
    · cases q with
      | nil =>
        obtain ⟨tl2, htl⟩ := hpre
        exact absurd (List.append_eq_nil.mp htl).1 hr
      | cons n q' => simp [SeedDirectory, lookupFs]
  | link t' =>
    refine ⟨fun q i d hl _ => ?_, fun q t hl _ => ?_, fun q r hr hpre hne hskip => ?_⟩
    · cases q with
      | nil => simp [lookupFs] at hl
      | cons n q' => simp [lookupFs] at hl
    · cases q with
      | nil => simpa [SeedDirectory, lookupFs] using hl
      | cons n q' => simp [lookupFs] at hl
    · cases q with
      | nil =>
        obtain ⟨tl2, htl⟩ := hpre
        exact absurd (List.append_eq_nil.mp htl).1 hr
      | cons n q' => simp [SeedDirectory, lookupFs]
  | dir cs =>
    refine ⟨fun q i d hl hskip => ?_, fun q t hl hskip => ?_, fun q r hr hpre hne hskip => ?_⟩
    · exact lookupFs_seed_keep art q cs [] _ hwf hl (by intro ds h; cases h) hskip
    · exact lookupFs_seed_keep art q cs [] _ hwf hl (by intro ds h; cases h) hskip
    · simp only [SeedDirectory]
      cases hl : lookupFs q (.dir (seedChildren art [] cs)) with
      | none => rfl
      | some e =>
        exfalso
        have hq : q ≠ [] := by
          intro hq0
          subst hq0
          obtain ⟨tl2, htl⟩ := hpre
          exact absurd (List.append_eq_nil.mp htl).1 hr
        have hsound := lookupFs_seed_sound art q cs [] e hwf hl hq
        have h2 := hsound.1 r hr hpre hne
        simp only [relChars] at hskip
        rw [hskip] at h2
        exact absurd h2 (by simp)

/-- Witness for `SeedDirectory_mirrors`: the concrete cargo source tree
`srcSeedW` is well-formed and the mirroring facts hold for it. -/
theorem SeedDirectory_mirrors_witness :
    wfFs srcSeedW = true
    ∧ ((∀ q i d, lookupFs q srcSeedW = some (.file i d) →
        shouldSkipPath (relChars q) "cargo" = false →
        lookupFs q (SeedDirectory "cargo" srcSeedW) = some (.file i d))
      ∧ (∀ q t, lookupFs q srcSeedW = some (.link t) →
        shouldSkipPath (relChars q) "cargo" = false →
        lookupFs q (SeedDirectory "cargo" srcSeedW) = some (.link t))
      ∧ (∀ q r, r ≠ [] → r <+: q → r ≠ q →
        shouldSkipPath (relChars r ++ ['/']) "cargo" = true →
        lookupFs q (SeedDirectory "cargo" srcSeedW) = none)) := by
  have hwf : wfFs srcSeedW = true := by
    simp [srcSeedW, wfFs, wfFs.wfList, namesOkB]
  exact ⟨hwf, SeedDirectory_mirrors "cargo" srcSeedW hwf⟩

/-- C4 counterexample: `StoreToCache` renames the workspace tree wholesale,
so the entry it creates contains `target/a.o`, whose relative path matches
a cargo skip rule — refuting the claim that no skip-rule-matching file ever
appears in any cache entry. -/
theorem StoreToCache_skip_file_cex :
    shouldSkipCargoPath (relChars ["target", "a.o"]) = true
    ∧ (StoreToCache "cargo" "k0" [["target"]] stateCexC4).2 = none
    ∧ lookupFs ["cargo", "k0", "target", "a.o"]
        (StoreToCache "cargo" "k0" [["target"]] stateCexC4).1.cache = some (.file 1 []) := by
  exact ⟨by decide, rfl, rfl⟩

/-- C4 (amended): the invariant holds for the entries `seed_from_root`
populates through `SeedDirectory`: relative to the seeded subtree root, no
file sits at a path a cargo skip rule matches.  (Entries made by
`StoreToCache`/`moveToCache` rename the workspace tree wholesale and are
exempt, as the counterexample shows.) -/
theorem seed_entry_no_skipped_file (art : String) (src : FsEntry) (hwf : wfFs src = true) :
    ∀ q i d, shouldSkipPath (relChars q) art = true →
      lookupFs q (SeedDirectory art src) ≠ some (.file i d) := by
  intro q i d hskip hl
  cases src with
  | file i' d' =>
    cases q with
    | nil =>
      rw [show relChars [] = [] from rfl, shouldSkipPath_nil] at hskip
      exact absurd hskip (by simp)
    | cons n q' => simp [SeedDirectory, lookupFs] at hl
  | link t' =>
    cases q with
    | nil => simp [SeedDirectory, lookupFs] at hl
    | cons n q' => simp [SeedDirectory, lookupFs] at hl
  | dir cs =>
    cases q with
    | nil => simp [SeedDirectory, lookupFs] at hl
    | cons n q' =>
      simp only [SeedDirectory] at hl
      have hsound := lookupFs_seed_sound art (n :: q') cs [] _ hwf hl (by simp)
      have h2 := (hsound.2 (by intro ds h; cases h)).1
      simp only [relChars] at hskip
      rw [hskip] at h2
      exact absurd h2 (by simp)

/-- Witness for `seed_entry_no_skipped_file` at the concrete source tree. -/
theorem seed_entry_no_skipped_file_witness :
    wfFs srcSeedW = true
    ∧ (∀ q i d, shouldSkipPath (relChars q) "cargo" = true →
        lookupFs q (SeedDirectory "cargo" srcSeedW) ≠ some (.file i d)) := by
  have hwf : wfFs srcSeedW = true := by
    simp [srcSeedW, wfFs, wfFs.wfList, namesOkB]
  exact ⟨hwf, seed_entry_no_skipped_file "cargo" srcSeedW hwf⟩

/-- `setChild` then lookup. -/
theorem setChild_find {e : FsEntry} :
    ∀ {cs : List (String × FsEntry)} {n m : String},
      findC (setChild cs n e) m = if m = n then some e else findC cs m := by
  intro cs
  induction cs with
  | nil =>
    intro n m
    by_cases hm : m = n
    · subst hm; simp [setChild, findC]
    · have hnm : ¬(n = m) := fun h => hm h.symm
      simp [setChild, findC, hm, hnm]
  | cons hd tl ih =>
    intro n m
    obtain ⟨a, x⟩ := hd
    by_cases ha : a = n
    · subst ha
      by_cases hm : m = a
      · subst hm; simp [setChild, findC]
      · have ham : ¬(a = m) := fun h => hm h.symm
        simp [setChild, findC, hm, ham]
    · by_cases ham : a = m
      · subst ham
        have han : ¬(a = n) := ha
        simp [setChild, if_neg ha, findC, han]
      · simp [setChild, if_neg ha, findC, if_neg ham, ih]

/-- Replacing a found child by itself changes nothing. -/
theorem setChild_self {c : FsEntry} :
    ∀ {cs : List (String × FsEntry)} {n : String},
      findC cs n = some c → setChild cs n c = cs := by
  intro cs
  induction cs with
  | nil => intro n h; simp [findC] at h
  | cons hd tl ih =>
    intro n h
    obtain ⟨a, x⟩ := hd
    by_cases ha : a = n
    · subst ha
      have hx : x = c := by simpa [findC] using h
      subst hx
      simp [setChild]
    · simp only [findC, if_neg ha] at h
      simp [setChild, if_neg ha, ih h]

/-- `eraseChild` leaves other names alone. -/
theorem eraseChild_find_ne :
    ∀ {cs : List (String × FsEntry)} {n m : String}, m ≠ n →
      findC (eraseChild cs n) m = findC cs m := by
  intro cs
  induction cs with
  | nil => intro n m _; rfl
  | cons hd tl ih =>
    intro n m hm
    obtain ⟨a, x⟩ := hd
    by_cases ha : a = n
    · subst ha
      have : a ≠ m := fun h => hm h.symm
      simp [eraseChild, findC, if_neg this]
    · by_cases ham : a = m
      · subst ham
        simp [eraseChild, if_neg ha, findC]
      · simp [eraseChild, if_neg ha, findC, if_neg ham, ih hm]

/-- With distinct names, erasing a name removes it entirely. -/
theorem eraseChild_find_self :
    ∀ {cs : List (String × FsEntry)} {n : String},
      nodupNames (cs.map Prod.fst) = true →
      findC (eraseChild cs n) n = none := by
  intro cs
  induction cs with
  | nil => intro n _; rfl
  | cons hd tl ih =>
    intro n hnd
    obtain ⟨a, x⟩ := hd
    simp only [List.map_cons, nodupNames, Bool.and_eq_true, Bool.not_eq_true'] at hnd
    by_cases ha : a = n
    · subst ha
      have herase : eraseChild ((a, x) :: tl) a = tl := by simp [eraseChild]
      rw [herase]
      cases hf : findC tl a with
      | none => rfl
      | some y =>
        have hmem := List.mem_map_of_mem Prod.fst (findC_mem hf)
        have := List.any_eq_false.mp hnd.1 a hmem
        simp at this
    · simp [eraseChild, if_neg ha, findC, if_neg ha, ih hnd.2]

/-- Children of a `nodupKeys` directory list are `nodupKeys`. -/
theorem nodupList_mem : ∀ {cs : List (String × FsEntry)} {nm : String} {e : FsEntry},
    nodupKeys.nodupList cs = true → (nm, e) ∈ cs → nodupKeys e = true := by
  intro cs
  induction cs with
  | nil => intro nm e _ h; simp at h
  | cons hd tl ih =>
    intro nm e hnd hmem
    obtain ⟨m, x⟩ := hd
    simp only [nodupKeys.nodupList, Bool.and_eq_true] at hnd
    rcases List.mem_cons.mp hmem with heq | hmem'
    · cases heq; exact hnd.1
    · exact ih hnd.2 hmem'

/-- Projections of directory `nodupKeys`. -/
theorem nodup_dir_names {cs : List (String × FsEntry)} (h : nodupKeys (.dir cs) = true) :
    nodupNames (cs.map Prod.fst) = true := by
  simp only [nodupKeys, Bool.and_eq_true] at h
  exact h.1

/-- Projections of directory `nodupKeys`. -/
theorem nodup_dir_list {cs : List (String × FsEntry)} (h : nodupKeys (.dir cs) = true) :
    nodupKeys.nodupList cs = true := by
  simp only [nodupKeys, Bool.and_eq_true] at h
  exact h.2

/-- `mkChain` builds a directory chain. -/
theorem mkChain_dirExists : ∀ p : List String, dirExists (mkChain p) p = true := by
  intro p
  induction p with
  | nil => rfl
  | cons n p' ih => simp [mkChain, dirExists, lookupFs, findC]; simpa [dirExists] using ih

/-- `mkdirAll` leaves a directory at its path. -/
theorem mkdirAll_dirExists :
    ∀ {p : List String} {t t' : FsEntry}, mkdirAll p t = some t' → dirExists t' p = true := by
  intro p
  induction p with
  | nil =>
    intro t t' h
    simp only [mkdirAll] at h
    split at h
    · cases h; simpa [dirExists, lookupFs]
    · exact absurd h (by simp)
  | cons n p' ih =>
    intro t t' h
    cases t with
    | file i d => simp [mkdirAll] at h
    | link tg => simp [mkdirAll] at h
    | dir cs =>
      simp only [mkdirAll] at h
      cases hf : findC cs n with
      | some c =>
        rw [hf] at h
        dsimp only at h
        cases hc : mkdirAll p' c with
        | none => rw [hc] at h; simp at h
        | some c' =>
          rw [hc] at h
          simp only [Option.map_some'] at h
          cases h
          simp only [dirExists, lookupFs, setChild_find, if_pos rfl]
          exact ih hc
      | none =>
        rw [hf] at h
        dsimp only at h
        cases h
        simp only [dirExists, lookupFs, setChild_find, if_pos rfl]
        exact mkChain_dirExists p'

/-- Unfold `removeAt` at a nonempty tail. -/
theorem removeAt_cons_found {n : String} {p : List String} {cs : List (String × FsEntry)}
    {c : FsEntry} (hp : p ≠ []) (hf : findC cs n = some c) :
    removeAt (n :: p) (.dir cs) = .dir (setChild cs n (removeAt p c)) := by
  cases p with
  | nil => exact absurd rfl hp
  | cons a q => simp [removeAt, hf]

/-- Unfold `removeAt` at a nonempty tail whose head child is missing. -/
theorem removeAt_cons_missing {n : String} {p : List String} {cs : List (String × FsEntry)}
    (hp : p ≠ []) (hf : findC cs n = none) :
    removeAt (n :: p) (.dir cs) = .dir cs := by
  cases p with
  | nil => exact absurd rfl hp
  | cons a q => simp [removeAt, hf]

/-- Unfold `placeNew` at a nonempty tail. -/
theorem placeNew_cons_found {n : String} {p : List String} {e : FsEntry}
    {cs : List (String × FsEntry)} {c : FsEntry} (hp : p ≠ []) (hf : findC cs n = some c) :
    placeNew (n :: p) e (.dir cs) =
      (placeNew p e c).map (fun c' => FsEntry.dir (setChild cs n c')) := by
  cases p with
  | nil => exact absurd rfl hp
  | cons a q => simp [placeNew, hf]

/-- Unfold `placeNew` at a nonempty tail whose head child is missing. -/
theorem placeNew_cons_missing {n : String} {p : List String} {e : FsEntry}
    {cs : List (String × FsEntry)} (hp : p ≠ []) (hf : findC cs n = none) :
    placeNew (n :: p) e (.dir cs) = none := by
  cases p with
  | nil => exact absurd rfl hp
  | cons a q => simp [placeNew, hf]

/-- Removing a child of a directory keeps the directory, minus that
child. -/
theorem removeAt_parent :
    ∀ {q : List String} {t : FsEntry} {cs0 : List (String × FsEntry)} {b : String},
      lookupFs q t = some (.dir cs0) →
      lookupFs q (removeAt (q ++ [b]) t) = some (.dir (eraseChild cs0 b)) := by
  intro q
  induction q with
  | nil =>
    intro t cs0 b h
    have ht : t = .dir cs0 := by simpa [lookupFs] using h
    subst ht
    simp [removeAt, lookupFs]
  | cons n q' ih =>
    intro t cs0 b h
    cases t with
    | file i d => simp [lookupFs] at h
    | link tg => simp [lookupFs] at h
    | dir cs =>
      simp only [lookupFs] at h
      cases hf : findC cs n with
      | none => rw [hf] at h; exact absurd h (by simp)
      | some c =>
        rw [hf] at h
        show lookupFs (n :: q') (removeAt (n :: (q' ++ [b])) (.dir cs)) = _
        rw [removeAt_cons_found (by simp) hf]
        simp only [lookupFs, setChild_find, if_pos rfl]
        exact ih h

/-- With distinct names everywhere, removal really removes. -/
theorem removeAt_target_none :
    ∀ {q : List String} {t : FsEntry} {b : String},
      nodupKeys t = true →
      lookupFs (q ++ [b]) (removeAt (q ++ [b]) t) = none := by
  intro q
  induction q with
  | nil =>
    intro t b hnd
    cases t with
    | file i d => simp [removeAt, lookupFs]
    | link tg => simp [removeAt, lookupFs]
    | dir cs =>
      simp only [List.nil_append, removeAt, lookupFs]
      rw [eraseChild_find_self (nodup_dir_names hnd)]
  | cons n q' ih =>
    intro t b hnd
    cases t with
    | file i d => simp [removeAt, lookupFs]
    | link tg => simp [removeAt, lookupFs]
    | dir cs =>
      show lookupFs (n :: (q' ++ [b])) (removeAt (n :: (q' ++ [b])) (.dir cs)) = none
      cases hf : findC cs n with
      | none =>
        rw [removeAt_cons_missing (by simp) hf]
        simp [lookupFs, hf]
      | some c =>
        have hc : nodupKeys c = true := nodupList_mem (nodup_dir_list hnd) (findC_mem hf)
        rw [removeAt_cons_found (by simp) hf]
        simp only [lookupFs, setChild_find, if_pos rfl]
        exact ih hc

/-- `setChild` changes names as `setName` does. -/
theorem setChild_names {e : FsEntry} :
    ∀ (cs : List (String × FsEntry)) (n : String),
      (setChild cs n e).map Prod.fst = setName (cs.map Prod.fst) n := by
  intro cs
  induction cs with
  | nil => intro n; rfl
  | cons hd tl ih =>
    intro n
    obtain ⟨a, x⟩ := hd
    by_cases ha : a = n
    · subst ha; simp [setChild, setName]
    · simp [setChild, setName, if_neg ha, ih]

/-- `eraseChild` changes names as `eraseName` does. -/
theorem eraseChild_names :
    ∀ (cs : List (String × FsEntry)) (n : String),
      (eraseChild cs n).map Prod.fst = eraseName (cs.map Prod.fst) n := by
  intro cs
  induction cs with
  | nil => intro n; rfl
  | cons hd tl ih =>
    intro n
    obtain ⟨a, x⟩ := hd
    by_cases ha : a = n
    · subst ha; simp [eraseChild, eraseName]
    · simp [eraseChild, eraseName, if_neg ha, ih]

/-- Membership after `setName`. -/
theorem setName_mem :
    ∀ {l : List String} {n m : String}, m ∈ setName l n → m ∈ l ∨ m = n := by
  intro l
  induction l with
  | nil => intro n m h; simp [setName] at h; exact Or.inr h
  | cons a r ih =>
    intro n m h
    by_cases ha : a = n
    · subst ha
      simp only [setName, if_pos rfl, if_true] at h
      exact Or.inl h
    · simp only [setName, if_neg ha, List.mem_cons] at h
      rcases h with rfl | h2
      · exact Or.inl (by simp)
      · rcases ih h2 with h3 | h3
        · exact Or.inl (by simp [h3])
        · exact Or.inr h3

/-- Membership after `eraseName`. -/
theorem eraseName_mem :
    ∀ {l : List String} {n m : String}, m ∈ eraseName l n → m ∈ l := by
  intro l
  induction l with
  | nil => intro n m h; simp [eraseName] at h
  | cons a r ih =>
    intro n m h
    by_cases ha : a = n
    · subst ha
      simp only [eraseName, if_pos rfl, if_true] at h
      simp [h]
    · simp only [eraseName, if_neg ha, List.mem_cons] at h
      rcases h with rfl | h2
      · simp
      · simp [ih h2]

/-- `setName` keeps names pairwise distinct. -/
theorem nodupNames_setName :
    ∀ {l : List String} {n : String},
      nodupNames l = true → nodupNames (setName l n) = true := by
  intro l
  induction l with
  | nil => intro n _; simp [setName, nodupNames]
  | cons a r ih =>
    intro n h
    simp only [nodupNames, Bool.and_eq_true, Bool.not_eq_true'] at h
    by_cases ha : a = n
    · subst ha
      simp only [setName, if_pos rfl, nodupNames, Bool.and_eq_true, Bool.not_eq_true']
      exact h
    · simp only [setName, if_neg ha, nodupNames, Bool.and_eq_true, Bool.not_eq_true']
      refine ⟨?_, ih h.2⟩
      rw [List.any_eq_false]
      intro m hm
      rcases setName_mem hm with h3 | h3
      · have := List.any_eq_false.mp h.1 m h3
        simpa using this
      · subst h3
        simp only [Bool.not_eq_true, beq_eq_false_iff_ne, ne_eq]
        exact fun hc => ha hc.symm

/-- `eraseName` keeps names pairwise distinct. -/
theorem nodupNames_eraseName :
    ∀ {l : List String} {n : String},
      nodupNames l = true → nodupNames (eraseName l n) = true := by
  intro l
  induction l with
  | nil => intro n h; exact h
  | cons a r ih =>
    intro n h
    simp only [nodupNames, Bool.and_eq_true, Bool.not_eq_true'] at h
    by_cases ha : a = n
    · subst ha
      simp only [eraseName, if_pos rfl, if_true]
      exact h.2
    · simp only [eraseName, if_neg ha, nodupNames, Bool.and_eq_true, Bool.not_eq_true']
      refine ⟨?_, ih h.2⟩
      rw [List.any_eq_false]
      intro m hm
      have := List.any_eq_false.mp h.1 m (eraseName_mem hm)
      simpa using this

/-- `setChild` keeps names pairwise distinct. -/
theorem nodupNames_setChild {e : FsEntry} {cs : List (String × FsEntry)} {n : String}
    (h : nodupNames (cs.map Prod.fst) = true) :
    nodupNames ((setChild cs n e).map Prod.fst) = true := by
  rw [setChild_names]
  exact nodupNames_setName h

/-- `eraseChild` keeps names pairwise distinct. -/
theorem nodupNames_eraseChild {cs : List (String × FsEntry)} {n : String}
    (h : nodupNames (cs.map Prod.fst) = true) :
    nodupNames ((eraseChild cs n).map Prod.fst) = true := by
  rw [eraseChild_names]
  exact nodupNames_eraseName h

/-- `setChild` keeps the children recursively well-formed. -/
theorem nodupList_setChild {e : FsEntry} (he : nodupKeys e = true) :
    ∀ {cs : List (String × FsEntry)} {n : String},
      nodupKeys.nodupList cs = true →
      nodupKeys.nodupList (setChild cs n e) = true := by
  intro cs
  induction cs with
  | nil => intro n _; simp [setChild, nodupKeys.nodupList, he]
  | cons hd tl ih =>
    intro n h
    obtain ⟨a, x⟩ := hd
    simp only [nodupKeys.nodupList, Bool.and_eq_true] at h
    by_cases ha : a = n
    · subst ha
      simp only [setChild, if_pos rfl, nodupKeys.nodupList, Bool.and_eq_true]
      exact ⟨he, h.2⟩
    · simp only [setChild, if_neg ha, nodupKeys.nodupList, Bool.and_eq_true]
      exact ⟨h.1, ih h.2⟩

/-- `setChild` preserves tree well-formedness. -/
theorem setChild_nodup {cs : List (String × FsEntry)} {n : String} {e : FsEntry}
    (h : nodupKeys (.dir cs) = true) (he : nodupKeys e = true) :
    nodupKeys (.dir (setChild cs n e)) = true := by
  simp only [nodupKeys, Bool.and_eq_true] at h ⊢
  exact ⟨nodupNames_setChild h.1, nodupList_setChild he h.2⟩

/-- Fresh directory chains are well-formed. -/
theorem mkChain_nodup : ∀ p : List String, nodupKeys (mkChain p) = true := by
  intro p
  induction p with
  | nil => rfl
  | cons n p' ih => simp [mkChain, nodupKeys, nodupNames, nodupKeys.nodupList, ih]

/-- `mkdirAll` preserves tree well-formedness. -/
theorem mkdirAll_nodup :
    ∀ {p : List String} {t t' : FsEntry},
      nodupKeys t = true → mkdirAll p t = some t' → nodupKeys t' = true := by
  intro p
  induction p with
  | nil =>
    intro t t' hnd h
    simp only [mkdirAll] at h
    split at h
    · cases h; exact hnd
    · exact absurd h (by simp)
  | cons n p' ih =>
    intro t t' hnd h
    cases t with
    | file i d => simp [mkdirAll] at h
    | link tg => simp [mkdirAll] at h
    | dir cs =>
      simp only [mkdirAll] at h
      cases hf : findC cs n with
      | some c =>
        rw [hf] at h
        dsimp only at h
        cases hc : mkdirAll p' c with
        | none => rw [hc] at h; simp at h
        | some c' =>
          rw [hc] at h
          simp only [Option.map_some'] at h
          cases h
          have hcnd : nodupKeys c = true := nodupList_mem (nodup_dir_list hnd) (findC_mem hf)
          exact setChild_nodup hnd (ih hcnd hc)
      | none =>
        rw [hf] at h
        dsimp only at h
        cases h
        exact setChild_nodup hnd (mkChain_nodup p')

/-- `eraseChild` keeps the children recursively well-formed. -/
theorem nodupList_eraseChild :
    ∀ {cs : List (String × FsEntry)} {n : String},
      nodupKeys.nodupList cs = true →
      nodupKeys.nodupList (eraseChild cs n) = true := by
  intro cs
  induction cs with
  | nil => intro n h; exact h
  | cons hd tl ih =>
    intro n h
    obtain ⟨a, x⟩ := hd
    simp only [nodupKeys.nodupList, Bool.and_eq_true] at h
    by_cases ha : a = n
    · subst ha; simpa [eraseChild] using h.2
    · simp only [eraseChild, if_neg ha, nodupKeys.nodupList, Bool.and_eq_true]
      exact ⟨h.1, ih h.2⟩

/-- `removeAt` on a non-directory does nothing. -/
theorem removeAt_nondir (t : FsEntry) (h : isDirE t = false) :
    ∀ p : List String, removeAt p t = t := by
  intro p
  cases t with
  | file i d => cases p with | nil => rfl | cons a q => cases q <;> rfl
  | link tg => cases p with | nil => rfl | cons a q => cases q <;> rfl
  | dir cs => simp [isDirE] at h

/-- `removeAt` preserves tree well-formedness. -/
theorem removeAt_nodup :
    ∀ {p : List String} {t : FsEntry}, nodupKeys t = true → nodupKeys (removeAt p t) = true := by
  intro p
  induction p with
  | nil => intro t h; exact h
  | cons n p' ih =>
    intro t h
    cases t with
    | file i d => rw [removeAt_nondir (.file i d) rfl]; exact h
    | link tg => rw [removeAt_nondir (.link tg) rfl]; exact h
    | dir cs =>
      cases p' with
      | nil =>
        simp only [removeAt, nodupKeys, Bool.and_eq_true]
        exact ⟨nodupNames_eraseChild (nodup_dir_names h), nodupList_eraseChild (nodup_dir_list h)⟩
      | cons a q =>
        cases hf : findC cs n with
        | none => rw [removeAt_cons_missing (by simp) hf]; exact h
        | some c =>
          rw [removeAt_cons_found (by simp) hf]
          have hcnd : nodupKeys c = true := nodupList_mem (nodup_dir_list h) (findC_mem hf)
          exact setChild_nodup h (ih hcnd)

/-- `ensureFileAt` preserves tree well-formedness. -/
theorem ensureFileAt_nodup :
    ∀ {p : List String} {t t' : FsEntry},
      nodupKeys t = true → ensureFileAt p t = some t' → nodupKeys t' = true := by
  intro p
  induction p with
  | nil => intro t t' _ h; simp [ensureFileAt] at h
  | cons n p' ih =>
    intro t t' hnd h
    cases t with
    | file i d => cases p' <;> simp [ensureFileAt] at h
    | link tg => cases p' <;> simp [ensureFileAt] at h
    | dir cs =>
      cases p' with
      | nil =>
        simp only [ensureFileAt] at h
        cases hf : findC cs n with
        | none =>
          rw [hf] at h
          dsimp only at h
          cases h
          exact setChild_nodup hnd rfl
        | some c =>
          rw [hf] at h
          cases c with
          | file i d => dsimp only at h; cases h; exact hnd
          | link tg => simp at h
          | dir ds => simp at h
      | cons a q =>
        simp only [ensureFileAt] at h
        cases hf : findC cs n with
        | none => rw [hf] at h; simp at h
        | some c =>
          rw [hf] at h
          dsimp only at h
          cases hc : ensureFileAt (a :: q) c with
          | none => rw [hc] at h; simp at h
          | some c' =>
            rw [hc] at h
            simp only [Option.map_some'] at h
            cases h
            have hcnd : nodupKeys c = true := nodupList_mem (nodup_dir_list hnd) (findC_mem hf)
            exact setChild_nodup hnd (ih hcnd hc)

/-- `placeNew` preserves tree well-formedness when the inserted entry is
well-formed. -/
theorem placeNew_nodup {e : FsEntry} (he : nodupKeys e = true) :
    ∀ {p : List String} {t t' : FsEntry},
      nodupKeys t = true → placeNew p e t = some t' → nodupKeys t' = true := by
  intro p
  induction p with
  | nil => intro t t' _ h; simp [placeNew] at h
  | cons n p' ih =>
    intro t t' hnd h
    cases t with
    | file i d => cases p' <;> simp [placeNew] at h
    | link tg => cases p' <;> simp [placeNew] at h
    | dir cs =>
      cases p' with
      | nil =>
        simp only [placeNew] at h
        cases hf : findC cs n with
        | none =>
          rw [hf] at h
          dsimp only at h
          cases h
          exact setChild_nodup hnd he
        | some c => rw [hf] at h; simp at h
      | cons a q =>
        cases hf : findC cs n with
        | none => rw [placeNew_cons_missing (by simp) hf] at h; simp at h
        | some c =>
          rw [placeNew_cons_found (by simp) hf] at h
          cases hc : placeNew (a :: q) e c with
          | none => rw [hc] at h; simp at h
          | some c' =>
            rw [hc] at h
            simp only [Option.map_some'] at h
            cases h
            have hcnd : nodupKeys c = true := nodupList_mem (nodup_dir_list hnd) (findC_mem hf)
            exact setChild_nodup hnd (ih hcnd hc)

/-- `mkdirAll` of a single component does not change what lies below it. -/
theorem mkdirAll_single_frame {n : String} {t c1 : FsEntry}
    (h : mkdirAll [n] t = some c1) :
    ∀ r : List String, r ≠ [] → lookupFs (n :: r) c1 = lookupFs (n :: r) t := by
  intro r hr
  cases t with
  | file i d => simp [mkdirAll] at h
  | link tg => simp [mkdirAll] at h
  | dir cs =>
    simp only [mkdirAll] at h
    cases hf : findC cs n with
    | some c =>
      rw [hf] at h
      dsimp only [mkdirAll] at h
      split at h
      · simp only [Option.map_some'] at h
        cases h
        rw [setChild_self hf]
      · exact absurd h (by simp)
    | none =>
      rw [hf] at h
      dsimp only at h
      cases h
      cases r with
      | nil => exact absurd rfl hr
      | cons m q =>
        simp [lookupFs, setChild_find, hf, mkChain, findC]

/-- Creating the lock file does not change any sibling subtree. -/
theorem ensureFileAt_lock_frame {n L : String} {c1 c2 : FsEntry}
    (h : ensureFileAt [n, L] c1 = some c2) :
    ∀ (m : String) (q : List String), m ≠ L →
      lookupFs (n :: m :: q) c2 = lookupFs (n :: m :: q) c1 := by
  intro m q hm
  cases c1 with
  | file i d => simp [ensureFileAt] at h
  | link tg => simp [ensureFileAt] at h
  | dir cs =>
    simp only [ensureFileAt] at h
    cases hf : findC cs n with
    | none => rw [hf] at h; simp at h
    | some c =>
      rw [hf] at h
      dsimp only at h
      cases hc : ensureFileAt [L] c with
      | none => rw [hc] at h; simp at h
      | some c' =>
        rw [hc] at h
        simp only [Option.map_some'] at h
        cases h
        simp only [lookupFs, setChild_find, if_pos rfl, hf]
        cases c with
        | file i d => simp [ensureFileAt] at hc
        | link tg => simp [ensureFileAt] at hc
        | dir ds =>
          simp only [ensureFileAt] at hc
          cases hfL : findC ds L with
          | none =>
            rw [hfL] at hc
            dsimp only at hc
            cases hc
            simp [lookupFs, setChild_find, if_neg hm]
          | some cL =>
            rw [hfL] at hc
            cases cL with
            | file i d => dsimp only at hc; cases hc; rfl
            | link tg => simp at hc
            | dir es => simp at hc

/-- C7 counterexample: after a failed seed into a fresh entry, the entry
key directory remains (empty), and the hit check reports a hit rather than
the miss the claim states. -/
theorem seedToCache_leaves_hit_cex :
    (seedToCache false "cargo" srcSeedW "target" "cargo" "e3b0c44298fc1c14" (.dir [])).2
        = some .ioFailure
    ∧ lookupFs ["cargo", "e3b0c44298fc1c14"]
        (seedToCache false "cargo" srcSeedW "target" "cargo" "e3b0c44298fc1c14" (.dir [])).1
        = some (.dir [])
    ∧ dirExists
        (seedToCache false "cargo" srcSeedW "target" "cargo" "e3b0c44298fc1c14" (.dir [])).1
        ["cargo", "e3b0c44298fc1c14"] = true :=
  ⟨rfl, rfl, rfl⟩

/-- C7 (amended): if seed_tree fails while `seedToCache` populates a new
entry, the partially created target directory inside the entry
(`cachePath/<basename>`) is removed best-effort (its error swallowed), but
the cache-entry key directory created by `mkdir_all` remains on disk as a
directory, so a subsequent hit check for that (project, artifact, key)
reports a hit — of an entry lacking the subtree — not a miss. -/
theorem seedToCache_failure_state (art : String) (src : FsEntry) (base n k : String)
    (cache c1 : FsEntry)
    (hnd : nodupKeys cache = true)
    (h1 : mkdirAll [n, k] cache = some c1)
    (h2 : dirExists c1 [n, k, base] = false) :
    seedToCache false art src base n k cache = (removeAt [n, k, base] c1, some .ioFailure)
    ∧ dirExists (removeAt [n, k, base] c1) [n, k] = true
    ∧ lookupFs [n, k, base] (removeAt [n, k, base] c1) = none := by
  refine ⟨?_, ?_, ?_⟩
  · simp [seedToCache, h1, h2]
  · have hd := mkdirAll_dirExists h1
    simp only [dirExists] at hd ⊢
    cases hl : lookupFs [n, k] c1 with
    | none => rw [hl] at hd; simp at hd
    | some e =>
      rw [hl] at hd
      cases e with
      | file i d => simp [isDirE] at hd
      | link tg => simp [isDirE] at hd
      | dir ds =>
        have h3 : lookupFs [n, k] (removeAt ([n, k] ++ [base]) c1) =
            some (.dir (eraseChild ds base)) := removeAt_parent hl
        rw [show ([n, k] ++ [base] : List String) = [n, k, base] from rfl] at h3
        rw [h3]
        rfl
  · have h4 : lookupFs ([n, k] ++ [base]) (removeAt ([n, k] ++ [base]) c1) = none :=
      removeAt_target_none (mkdirAll_nodup hnd h1)
    simpa using h4

/-- Witness for `seedToCache_failure_state` at a fresh cache. -/
theorem seedToCache_failure_state_witness :
    nodupKeys (FsEntry.dir []) = true
    ∧ mkdirAll ["cargo", "k0"] (FsEntry.dir []) =
        some (.dir [("cargo", .dir [("k0", .dir [])])])
    ∧ dirExists (.dir [("cargo", .dir [("k0", .dir [])])]) ["cargo", "k0", "target"] = false
    ∧ (seedToCache false "cargo" srcSeedW "target" "cargo" "k0" (.dir []) =
        (removeAt ["cargo", "k0", "target"] (.dir [("cargo", .dir [("k0", .dir [])])]),
          some .ioFailure)
      ∧ dirExists (removeAt ["cargo", "k0", "target"]
          (.dir [("cargo", .dir [("k0", .dir [])])])) ["cargo", "k0"] = true
      ∧ lookupFs ["cargo", "k0", "target"] (removeAt ["cargo", "k0", "target"]
          (.dir [("cargo", .dir [("k0", .dir [])])])) = none) := by
  refine ⟨by simp [nodupKeys, nodupNames, nodupKeys.nodupList], rfl, rfl, ?_⟩
  exact seedToCache_failure_state "cargo" srcSeedW "target" "cargo" "k0" _ _
    (by simp [nodupKeys, nodupNames, nodupKeys.nodupList]) rfl rfl

/-- C9: when the non-blocking advisory lock is held elsewhere,
`acquireCacheLock` returns a null handle with no error, and `moveToCache`
treats the null handle as a silent successful no-op: it returns no error,
leaves the workspace untouched, and leaves every entry beneath the artifact
directory other than the lock sidecar untouched. -/
theorem lock_unavailable_silent (n k : String) (p : List String) (hlb : Bool)
    (s : SyncState) (c1 c2 : FsEntry)
    (h1 : mkdirAll [n] s.cache = some c1)
    (h2 : ensureFileAt [n, lockName k] c1 = some c2) :
    acquireCacheLock false n k s.cache = (c2, some none)
    ∧ moveToCache false n k p hlb s = ({ s with cache := c2 }, none)
    ∧ ({ s with cache := c2 } : SyncState).env = s.env
    ∧ ∀ (m : String) (q : List String), m ≠ lockName k →
        lookupFs (n :: m :: q) c2 = lookupFs (n :: m :: q) s.cache := by
  refine ⟨?_, ?_, rfl, ?_⟩
  · simp [acquireCacheLock, h1, h2]
  · simp [moveToCache, acquireCacheLock, h1, h2]
  · intro m q hm
    rw [ensureFileAt_lock_frame h2 m q hm]
    exact mkdirAll_single_frame h1 (m :: q) (by simp)

/-- A key never equals its own lock-file name. -/
theorem lockName_ne (k : String) : k ≠ lockName k := by
  intro h
  have := congrArg (fun s => s.data.length) h
  simp [lockName, String.data_append] at this

/-- `mkdirAll` of the entry path does not change what lies below it. -/
theorem mkdirAll_pair_frame {n k : String} {t c : FsEntry}
    (h : mkdirAll [n, k] t = some c) :
    ∀ q : List String, q ≠ [] → lookupFs (n :: k :: q) c = lookupFs (n :: k :: q) t := by
  intro q hq
  cases t with
  | file i d => simp [mkdirAll] at h
  | link tg => simp [mkdirAll] at h
  | dir cs =>
    simp only [mkdirAll] at h
    cases hf : findC cs n with
    | some c0 =>
      rw [hf] at h
      dsimp only at h
      cases h2 : mkdirAll [k] c0 with
      | none => rw [h2] at h; simp at h
      | some c0' =>
        rw [h2] at h
        simp only [Option.map_some'] at h
        cases h
        simp only [lookupFs, setChild_find, if_pos rfl, hf]
        exact mkdirAll_single_frame h2 q hq
    | none =>
      rw [hf] at h
      dsimp only at h
      cases h
      cases q with
      | nil => exact absurd rfl hq
      | cons m q' =>
        simp [lookupFs, setChild_find, hf, mkChain, findC]

/-- `placeNew` at a depth-3 path: the new entry is readable, the target was
absent, and sibling children are untouched. -/
theorem placeNew_triple_target {a1 a2 a3 : String} {e t c : FsEntry}
    (h : placeNew [a1, a2, a3] e t = some c) :
    lookupFs [a1, a2, a3] c = some e
    ∧ lookupFs [a1, a2, a3] t = none
    ∧ ∀ b : String, b ≠ a3 → lookupFs [a1, a2, b] c = lookupFs [a1, a2, b] t := by
  cases t with
  | file i d => simp [placeNew] at h
  | link tg => simp [placeNew] at h
  | dir cs =>
    simp only [placeNew] at h
    cases hf1 : findC cs a1 with
    | none => rw [hf1] at h; simp at h
    | some c1 =>
      rw [hf1] at h
      dsimp only at h
      cases c1 with
      | file i d =>
        rw [show placeNew [a2, a3] e (FsEntry.file i d) = none from rfl] at h
        simp at h
      | link tg =>
        rw [show placeNew [a2, a3] e (FsEntry.link tg) = none from rfl] at h
        simp at h
      | dir cs2 =>
        cases hf2 : findC cs2 a2 with
        | none =>
          rw [show placeNew [a2, a3] e (.dir cs2) = none from by simp [placeNew, hf2]] at h
          simp at h
        | some c2 =>
          cases c2 with
          | file i d =>
            rw [show placeNew [a2, a3] e (.dir cs2) = none from by simp [placeNew, hf2]] at h
            simp at h
          | link tg =>
            rw [show placeNew [a2, a3] e (.dir cs2) = none from by simp [placeNew, hf2]] at h
            simp at h
          | dir cs3 =>
            cases hf3 : findC cs3 a3 with
            | some x =>
              rw [show placeNew [a2, a3] e (.dir cs2) = none from by
                simp [placeNew, hf2, hf3]] at h
              simp at h
            | none =>
              rw [show placeNew [a2, a3] e (.dir cs2) =
                  some (.dir (setChild cs2 a2 (.dir (setChild cs3 a3 e)))) from by
                simp [placeNew, hf2, hf3]] at h
              simp only [Option.map_some'] at h
              cases h
              refine ⟨?_, ?_, ?_⟩
              · simp [lookupFs, setChild_find, hf1]
              · simp [lookupFs, hf1, hf2, hf3]
              · intro b hb
                simp [lookupFs, setChild_find, if_neg hb, hf1, hf2]

/-- The lock-acquisition steps do not change any entry beneath the artifact
directory other than the lock sidecar, whatever their outcome. -/
theorem acquireCacheLock_frame {fa : Bool} {n k : String} {cache c : FsEntry}
    {r : Option (Option Unit)} (h : acquireCacheLock fa n k cache = (c, r)) :
    ∀ (m : String) (q : List String), m ≠ lockName k →
      lookupFs (n :: m :: q) c = lookupFs (n :: m :: q) cache := by
  intro m q hm
  simp only [acquireCacheLock] at h
  cases h1 : mkdirAll [n] cache with
  | none => rw [h1] at h; cases h; rfl
  | some c1 =>
    rw [h1] at h
    dsimp only at h
    cases h2 : ensureFileAt [n, lockName k] c1 with
    | none =>
      rw [h2] at h
      cases h
      exact mkdirAll_single_frame h1 (m :: q) (by simp)
    | some c2 =>
      rw [h2] at h
      dsimp only at h
      have hc : c = c2 := by
        cases fa <;> simp_all
      subst hc
      rw [ensureFileAt_lock_frame h2 m q hm]
      exact mkdirAll_single_frame h1 (m :: q) (by simp)

/-- Once a subtree sits inside the entry, the rest of the store loop leaves
it untouched. -/
theorem storeLoop_child_stable {n k : String} :
    ∀ (paths : List (List String)) (s : SyncState) (b : String) (v : FsEntry),
      lookupFs [n, k, b] s.cache = some v →
      lookupFs [n, k, b] (storeLoop n k paths s).1.cache = some v := by
  intro paths
  induction paths with
  | nil => intro s b v h; exact h
  | cons p rest ih =>
    intro s b v h
    simp only [storeLoop]
    by_cases hd : dirExists s.env p = true
    · rw [if_pos hd]
      cases hl : lookupFs p s.env with
      | none => exact h
      | some e =>
        dsimp only
        cases hp : placeNew [n, k, baseName p] e s.cache with
        | none => exact h
        | some c1 =>
          dsimp only
          have htr := placeNew_triple_target hp
          by_cases hb : b = baseName p
          · subst hb
            have hnone := htr.2.1
            rw [h] at hnone
            exact absurd hnone (by simp)
          · have hfr := htr.2.2 b hb
            cases hb2 : placeNew p e (removeAt p s.env) with
            | none =>
              dsimp only
              rw [hfr]
              exact h
            | some env2 =>
              dsimp only
              exact ih ⟨env2, c1⟩ b v (by rw [hfr]; exact h)
    · rw [if_neg hd]
      exact ih s b v h

/-- At every observable state of the store loop, each child of the entry is
either absent or already identical to its final value. -/
theorem storeLoopTrace_child_atomic {n k : String} :
    ∀ (paths : List (List String)) (s t : SyncState),
      t ∈ storeLoopTrace n k paths s → ∀ b : String,
        lookupFs [n, k, b] t.cache = none
        ∨ lookupFs [n, k, b] t.cache = lookupFs [n, k, b] (storeLoop n k paths s).1.cache := by
  intro paths
  induction paths with
  | nil => intro s t ht b; simp [storeLoopTrace] at ht
  | cons p rest ih =>
    intro s t ht b
    simp only [storeLoopTrace, storeLoop] at ht ⊢
    by_cases hd : dirExists s.env p = true
    · rw [if_pos hd] at ht ⊢
      cases hl : lookupFs p s.env with
      | none => rw [hl] at ht; simp at ht
      | some e =>
        rw [hl] at ht
        dsimp only at ht ⊢
        cases hp : placeNew [n, k, baseName p] e s.cache with
        | none => rw [hp] at ht; simp at ht
        | some c1 =>
          rw [hp] at ht
          dsimp only at ht ⊢
          cases hb2 : placeNew p e (removeAt p s.env) with
          | none =>
            rw [hb2] at ht
            dsimp only at ht ⊢
            rcases List.mem_cons.mp ht with rfl | h2
            · exact Or.inr rfl
            · simp at h2
          | some env2 =>
            rw [hb2] at ht
            dsimp only at ht ⊢
            have hmain : lookupFs [n, k, b] c1 = none
                ∨ lookupFs [n, k, b] c1 =
                    lookupFs [n, k, b] (storeLoop n k rest ⟨env2, c1⟩).1.cache := by
              cases hv : lookupFs [n, k, b] c1 with
              | none => exact Or.inl rfl
              | some v =>
                exact Or.inr (by rw [storeLoop_child_stable rest ⟨env2, c1⟩ b v hv])
            rcases List.mem_cons.mp ht with rfl | h2
            · exact hmain
            · rcases List.mem_cons.mp h2 with rfl | h3
              · exact hmain
              · exact ih ⟨env2, c1⟩ t h3 b
    · rw [if_neg hd] at ht ⊢
      exact ih s t ht b

/-- `StoreToCache`: each child of the entry is absent or final at every
observable intermediate state. -/
theorem StoreToCacheTrace_child_atomic (n k : String) (paths : List (List String))
    (s : SyncState) :
    ∀ t ∈ StoreToCacheTrace n k paths s, ∀ b : String,
      lookupFs [n, k, b] t.cache = none
      ∨ lookupFs [n, k, b] t.cache = lookupFs [n, k, b] (StoreToCache n k paths s).1.cache := by
  intro t ht b
  simp only [StoreToCacheTrace, StoreToCache] at ht ⊢
  cases hm : mkdirAll [n, k] s.cache with
  | none =>
    rw [hm] at ht
    dsimp only at ht ⊢
    rcases List.mem_cons.mp ht with rfl | h2
    · exact Or.inr rfl
    · simp at h2
  | some c1 =>
    rw [hm] at ht
    dsimp only at ht ⊢
    have hfr : lookupFs [n, k, b] c1 = lookupFs [n, k, b] s.cache :=
      mkdirAll_pair_frame hm [b] (by simp)
    have hmain : lookupFs [n, k, b] c1 = none
        ∨ lookupFs [n, k, b] c1 =
            lookupFs [n, k, b] (storeLoop n k paths ⟨s.env, c1⟩).1.cache := by
      cases hv : lookupFs [n, k, b] c1 with
      | none => exact Or.inl rfl
      | some v =>
        exact Or.inr (by rw [storeLoop_child_stable paths ⟨s.env, c1⟩ b v hv])
    rcases List.mem_cons.mp ht with rfl | h2
    · rcases hmain with h | h
      · exact Or.inl (by rw [← hfr]; exact h)
      · exact Or.inr (by rw [← hfr]; exact h)
    · rcases List.mem_cons.mp h2 with rfl | h3
      · exact hmain
      · exact storeLoopTrace_child_atomic paths ⟨s.env, c1⟩ t h3 b

/-- `moveToCache`: each child of the entry is absent or final at every
observable intermediate state. -/
theorem moveToCacheTrace_child_atomic (fa : Bool) (n k : String) (p : List String)
    (hlb : Bool) (s : SyncState) :
    ∀ t ∈ moveToCacheTrace fa n k p hlb s, ∀ b : String,
      lookupFs [n, k, b] t.cache = none
      ∨ lookupFs [n, k, b] t.cache =
          lookupFs [n, k, b] (moveToCache fa n k p hlb s).1.cache := by
  intro t ht b
  simp only [moveToCacheTrace, moveToCache] at ht ⊢
  rcases hacq : acquireCacheLock fa n k s.cache with ⟨c, r⟩
  have hfrA : lookupFs [n, k, b] c = lookupFs [n, k, b] s.cache :=
    acquireCacheLock_frame hacq k [b] (lockName_ne k)
  rw [hacq] at ht
  have hsfin : ∀ cfin : FsEntry, lookupFs [n, k, b] cfin = lookupFs [n, k, b] c →
      lookupFs [n, k, b] s.cache = none
      ∨ lookupFs [n, k, b] s.cache = lookupFs [n, k, b] cfin := by
    intro cfin hc
    cases hv : lookupFs [n, k, b] s.cache with
    | none => exact Or.inl rfl
    | some v => exact Or.inr (by simp only [hc, hfrA, hv])
  cases r with
  | none =>
    dsimp only at ht ⊢
    rcases List.mem_cons.mp ht with rfl | h2
    · exact hsfin c rfl
    · rcases List.mem_cons.mp h2 with rfl | h3
      · exact Or.inr rfl
      · simp at h3
  | some ro =>
    cases ro with
    | none =>
      dsimp only at ht ⊢
      rcases List.mem_cons.mp ht with rfl | h2
      · exact hsfin c rfl
      · rcases List.mem_cons.mp h2 with rfl | h3
        · exact Or.inr rfl
        · simp at h3
    | some u =>
      dsimp only at ht ⊢
      by_cases hde : dirExists c [n, k, baseName p] = true
      · rw [if_pos hde] at ht ⊢
        rcases List.mem_cons.mp ht with rfl | h2
        · exact hsfin c rfl
        · rcases List.mem_cons.mp h2 with rfl | h3
          · exact Or.inr rfl
          · simp at h3
      · rw [if_neg hde] at ht ⊢
        cases hm : mkdirAll [n, k] c with
        | none =>
          rw [hm] at ht
          dsimp only at ht ⊢
          rcases List.mem_cons.mp ht with rfl | h2
          · exact hsfin c rfl
          · rcases List.mem_cons.mp h2 with rfl | h3
            · exact Or.inr rfl
            · simp at h3
        | some c2 =>
          rw [hm] at ht
          dsimp only at ht ⊢
          have hfrM : lookupFs [n, k, b] c2 = lookupFs [n, k, b] c :=
            mkdirAll_pair_frame hm [b] (by simp)
          cases hl : lookupFs p s.env with
          | none =>
            rw [hl] at ht
            dsimp only at ht ⊢
            rcases List.mem_cons.mp ht with rfl | h2
            · exact hsfin c2 hfrM
            · rcases List.mem_cons.mp h2 with rfl | h3
              · exact Or.inr (by rw [hfrM])
              · rcases List.mem_cons.mp h3 with rfl | h4
                · exact Or.inr rfl
                · simp at h4
          | some e =>
            rw [hl] at ht
            dsimp only at ht ⊢
            cases hp : placeNew [n, k, baseName p] e c2 with
            | none =>
              rw [hp] at ht
              dsimp only at ht ⊢
              rcases List.mem_cons.mp ht with rfl | h2
              · exact hsfin c2 hfrM
              · rcases List.mem_cons.mp h2 with rfl | h3
                · exact Or.inr (by rw [hfrM])
                · rcases List.mem_cons.mp h3 with rfl | h4
                  · exact Or.inr rfl
                  · simp at h4
            | some c3 =>
              rw [hp] at ht
              dsimp only at ht ⊢
              have htr := placeNew_triple_target hp
              have hval : ∀ x : FsEntry, lookupFs [n, k, b] x = lookupFs [n, k, b] c →
                  lookupFs [n, k, b] x = none
                  ∨ lookupFs [n, k, b] x = lookupFs [n, k, b] c3 := by
                intro x hx
                by_cases hb : b = baseName p
                · subst hb
                  refine Or.inl ?_
                  rw [hx, ← hfrM]
                  exact htr.2.1
                · refine Or.inr ?_
                  rw [hx, ← hfrM, htr.2.2 b hb]
              by_cases hlbv : hlb = true
              · rw [if_pos hlbv] at ht ⊢
                cases hb2 : placeNew p e (removeAt p s.env) with
                | none =>
                  rw [hb2] at ht
                  dsimp only at ht ⊢
                  rcases List.mem_cons.mp ht with rfl | h2
                  · exact hval _ hfrA.symm
                  · rcases List.mem_cons.mp h2 with rfl | h3
                    · exact hval c rfl
                    · rcases List.mem_cons.mp h3 with rfl | h4
                      · exact hval c2 hfrM
                      · rcases List.mem_cons.mp h4 with rfl | h5
                        · exact Or.inr rfl
                        · simp at h5
                | some env2 =>
                  rw [hb2] at ht
                  dsimp only at ht ⊢
                  rcases List.mem_cons.mp ht with rfl | h2
                  · exact hval _ hfrA.symm
                  · rcases List.mem_cons.mp h2 with rfl | h3
                    · exact hval c rfl
                    · rcases List.mem_cons.mp h3 with rfl | h4
                      · exact hval c2 hfrM
                      · rcases List.mem_cons.mp h4 with rfl | h5
                        · exact Or.inr rfl
                        · rcases List.mem_cons.mp h5 with rfl | h6
                          · exact Or.inr rfl
                          · simp at h6
              · rw [if_neg hlbv] at ht ⊢
                rcases List.mem_cons.mp ht with rfl | h2
                · exact hval _ hfrA.symm
                · rcases List.mem_cons.mp h2 with rfl | h3
                  · exact hval c rfl
                  · rcases List.mem_cons.mp h3 with rfl | h4
                    · exact hval c2 hfrM
                    · rcases List.mem_cons.mp h4 with rfl | h5
                      · exact Or.inr rfl
                      · simp at h5

/-- Witness for `lock_unavailable_silent`: a cache that already holds the
artifact directory, one entry and the lock file. -/
theorem lock_unavailable_silent_witness :
    mkdirAll ["cargo"]
        (FsEntry.dir [("cargo", .dir [("k0", .dir []), ("k0.lock", .file 0 [])])]) =
      some (.dir [("cargo", .dir [("k0", .dir []), ("k0.lock", .file 0 [])])])
    ∧ ensureFileAt ["cargo", lockName "k0"]
        (.dir [("cargo", .dir [("k0", .dir []), ("k0.lock", .file 0 [])])]) =
      some (.dir [("cargo", .dir [("k0", .dir []), ("k0.lock", .file 0 [])])])
    ∧ (acquireCacheLock false "cargo" "k0"
        (.dir [("cargo", .dir [("k0", .dir []), ("k0.lock", .file 0 [])])]) =
      (.dir [("cargo", .dir [("k0", .dir []), ("k0.lock", .file 0 [])])], some none)) := by
  refine ⟨rfl, rfl, ?_⟩
  exact (lock_unavailable_silent "cargo" "k0" ["target"] true
    ⟨.dir [], .dir [("cargo", .dir [("k0", .dir []), ("k0.lock", .file 0 [])])]⟩
    _ _ rfl rfl).1

/-- C6, counterexample: during a successful `moveToCache` of `target` into the
fresh cache entry `cargo/k0`, a concurrent observer can see the state
`sCexC6mid` — it is on the operation's trace, the entry directory exists
there (a hit check succeeds), yet the entry is empty while the finished
entry holds the renamed subtree.  The entry directory is created by
`MkdirAll` before the rename, so it is briefly visible without its content,
contradicting the claim that no intermediate step exposes a partially
populated (here: empty) entry. -/
theorem moveToCache_empty_entry_cex :
    sCexC6mid ∈ moveToCacheTrace true "cargo" "k0" ["target"] false sCexC6
    ∧ dirExists sCexC6mid.cache ["cargo", "k0"] = true
    ∧ lookupFs ["cargo", "k0"] sCexC6mid.cache = some (.dir [])
    ∧ lookupFs ["cargo", "k0"]
        (moveToCache true "cargo" "k0" ["target"] false sCexC6).1.cache =
      some (.dir [("target", .dir [("f", .file 1 [9])])])
    ∧ (moveToCache true "cargo" "k0" ["target"] false sCexC6).2 = none
    ∧ ¬(∀ t ∈ moveToCacheTrace true "cargo" "k0" ["target"] false sCexC6,
          dirExists t.cache ["cargo", "k0"] = true →
          lookupFs ["cargo", "k0"] t.cache =
            lookupFs ["cargo", "k0"]
              (moveToCache true "cargo" "k0" ["target"] false sCexC6).1.cache) := by
  have hmem : sCexC6mid ∈ moveToCacheTrace true "cargo" "k0" ["target"] false sCexC6 := by
    have h2 : (moveToCacheTrace true "cargo" "k0" ["target"] false sCexC6)[2]? =
        some sCexC6mid := rfl
    exact List.getElem?_mem h2
  refine ⟨hmem, rfl, rfl, rfl, rfl, ?_⟩
  intro hall
  have := hall sCexC6mid hmem rfl
  rw [show lookupFs ["cargo", "k0"] sCexC6mid.cache = some (.dir []) from rfl] at this
  rw [show lookupFs ["cargo", "k0"]
        (moveToCache true "cargo" "k0" ["target"] false sCexC6).1.cache =
      some (.dir [("target", .dir [("f", .file 1 [9])])]) from rfl] at this
  simp at this

/-- `moveToCache` is the `xdev = false` case of `moveToCacheX`. -/
theorem moveToCacheX_false (fa : Bool) (n k : String) (p : List String) (hlb : Bool)
    (next : Nat) (s : SyncState) :
    moveToCacheX fa false n k p hlb next s = moveToCache fa n k p hlb s := rfl

/-- C6, amended: per-child atomicity holds exactly on the rename paths.
At every syscall-visible intermediate state of `StoreToCache` and of
`moveToCache`'s same-device path, each child `b` of the cache entry
`<n>/<k>` is either absent or already identical to its value in the final
state, because each subtree becomes visible only through one atomic rename
(first two conjuncts; the entry directory itself is still `MkdirAll`-ed
first and can be seen empty, as `moveToCache_empty_entry_cex` shows).  On
sync's cross-device branch (`isCrossDevice → copyToCache`, cache.go lines
900-903) even per-child atomicity fails: `copyDir` creates the child
`<n>/<k>/<base>` and fills it entry by entry, so the third conjunct
exhibits, on a successful cross-device run, a trace state where the child
exists but is still empty while the finished child holds the copied file
(with its fresh inode). -/
theorem cache_entry_child_atomic :
    (∀ (n k : String) (paths : List (List String)) (s : SyncState),
        ∀ t ∈ StoreToCacheTrace n k paths s, ∀ b : String,
          lookupFs [n, k, b] t.cache = none
          ∨ lookupFs [n, k, b] t.cache =
              lookupFs [n, k, b] (StoreToCache n k paths s).1.cache)
    ∧ (∀ (fa : Bool) (n k : String) (p : List String) (hlb : Bool) (sm : SyncState),
        ∀ t ∈ moveToCacheTrace fa n k p hlb sm, ∀ b : String,
          lookupFs [n, k, b] t.cache = none
          ∨ lookupFs [n, k, b] t.cache =
              lookupFs [n, k, b] (moveToCache fa n k p hlb sm).1.cache)
    ∧ (sCexC6xd ∈ moveToCacheXTrace true true "cargo" "k0" ["target"] false 7 sCexC6
       ∧ lookupFs ["cargo", "k0", "target"] sCexC6xd.cache = some (.dir [])
       ∧ lookupFs ["cargo", "k0", "target"]
           (moveToCacheX true true "cargo" "k0" ["target"] false 7 sCexC6).1.cache
           = some (.dir [("f", .file 7 [9])])
       ∧ (moveToCacheX true true "cargo" "k0" ["target"] false 7 sCexC6).2 = none) := by
  refine ⟨fun n k paths s => StoreToCacheTrace_child_atomic n k paths s,
    fun fa n k p hlb sm => moveToCacheTrace_child_atomic fa n k p hlb sm, ?_, rfl, ?_, rfl⟩
  · have h3 : (moveToCacheXTrace true true "cargo" "k0" ["target"] false 7 sCexC6)[3]? =
        some sCexC6xd := rfl
    exact List.getElem?_mem h3
  · have hc1 : copyTree (FsEntry.dir [("f", FsEntry.file 1 [9])]) 7
        = (.dir [("f", .file 7 [9])], 8) := by
      simp [copyTree, copyTree.copyChildren]
    have hfin : lookupFs ["cargo", "k0", "target"]
        (moveToCacheX true true "cargo" "k0" ["target"] false 7 sCexC6).1.cache
        = some (copyTree (FsEntry.dir [("f", FsEntry.file 1 [9])]) 7).1 := rfl
    rw [hfin, hc1]

/-! ### Observational equivalence of workspace trees -/

/-- `envEquiv` is reflexive. -/
theorem envEquiv_refl (t : FsEntry) : envEquiv t t := fun _ => rfl

/-- `envEquiv` is symmetric. -/
theorem envEquiv_symm {t u : FsEntry} (h : envEquiv t u) : envEquiv u t :=
  fun q => (h q).symm

/-- `envEquiv` is transitive. -/
theorem envEquiv_trans {t u v : FsEntry} (h1 : envEquiv t u) (h2 : envEquiv u v) :
    envEquiv t v :=
  fun q => (h1 q).trans (h2 q)

/-- Equivalent trees answer every key-file read identically. -/
theorem envEquiv_readEnv {t u : FsEntry} (h : envEquiv t u) : readEnv t = readEnv u := by
  funext f
  have hf := h f
  simp only [readEnv]
  cases hl : lookupFs f t with
  | none =>
    rw [hl] at hf
    cases hl2 : lookupFs f u with
    | none => rfl
    | some e2 => rw [hl2] at hf; simp at hf
  | some e1 =>
    rw [hl] at hf
    cases hl2 : lookupFs f u with
    | none => rw [hl2] at hf; simp at hf
    | some e2 =>
      rw [hl2] at hf
      simp only [Option.map_some'] at hf
      cases e1 <;> cases e2 <;> simp [entryView] at hf <;> simp [hf]

/-- Equivalent trees answer every directory-existence probe identically. -/
theorem envEquiv_dirExists {t u : FsEntry} (h : envEquiv t u) (q : List String) :
    dirExists t q = dirExists u q := by
  have hf := h q
  simp only [dirExists]
  cases hl : lookupFs q t with
  | none =>
    rw [hl] at hf
    cases hl2 : lookupFs q u with
    | none => rfl
    | some e2 => rw [hl2] at hf; simp at hf
  | some e1 =>
    rw [hl] at hf
    cases hl2 : lookupFs q u with
    | none => rw [hl2] at hf; simp at hf
    | some e2 =>
      rw [hl2] at hf
      simp only [Option.map_some'] at hf
      cases e1 <;> cases e2 <;> simp [entryView] at hf <;> simp [isDirE]

/-- Equivalent trees agree on the build-in-progress probe. -/
theorem envEquiv_isBuildInProgress {t u : FsEntry} (h : envEquiv t u) (a : ArtifactConfig) :
    isBuildInProgress a t = isBuildInProgress a u := by
  have hf := h ["target", ".cargo-lock"]
  simp only [isBuildInProgress]
  have hs : (lookupFs ["target", ".cargo-lock"] t).isSome
      = (lookupFs ["target", ".cargo-lock"] u).isSome := by
    cases hl : lookupFs ["target", ".cargo-lock"] t with
    | none =>
      rw [hl] at hf
      cases hl2 : lookupFs ["target", ".cargo-lock"] u with
      | none => rfl
      | some e2 => rw [hl2] at hf; simp at hf
    | some e1 =>
      rw [hl] at hf
      cases hl2 : lookupFs ["target", ".cargo-lock"] u with
      | none => rw [hl2] at hf; simp at hf
      | some e2 => rfl
  rw [hs]

/-- Overwriting the same name twice keeps only the second write. -/
theorem setChild_setChild {x y : FsEntry} :
    ∀ {cs : List (String × FsEntry)} {n : String},
      setChild (setChild cs n x) n y = setChild cs n y := by
  intro cs
  induction cs with
  | nil => intro n; simp [setChild]
  | cons hd tl ih =>
    intro n
    obtain ⟨a, b⟩ := hd
    by_cases ha : a = n
    · subst ha; simp [setChild]
    · simp [setChild, ha, ih]

/-- A subtree reached by lookup inside a well-formed tree is well-formed. -/
theorem lookupFs_nodup :
    ∀ {p : List String} {t e : FsEntry},
      nodupKeys t = true → lookupFs p t = some e → nodupKeys e = true := by
  intro p
  induction p with
  | nil =>
    intro t e h hl
    simp only [lookupFs, Option.some.injEq] at hl
    exact hl ▸ h
  | cons n p' ih =>
    intro t e h hl
    cases t with
    | file i d => simp [lookupFs] at hl
    | link tg => simp [lookupFs] at hl
    | dir cs =>
      simp only [lookupFs] at hl
      cases hf : findC cs n with
      | none => rw [hf] at hl; simp at hl
      | some c =>
        rw [hf] at hl
        exact ih (nodupList_mem (nodup_dir_list h) (findC_mem hf)) hl

/-- Descent step of `dirExists` through a found child. -/
theorem dirExists_cons_found {cs : List (String × FsEntry)} {m : String} {ch : FsEntry}
    (hf : findC cs m = some ch) (q : List String) :
    dirExists (.dir cs) (m :: q) = dirExists ch q := by
  simp [dirExists, lookupFs, hf]

/-- `dirExists` through a missing child is false. -/
theorem dirExists_cons_missing {cs : List (String × FsEntry)} {m : String}
    (hf : findC cs m = none) (q : List String) :
    dirExists (.dir cs) (m :: q) = false := by
  simp [dirExists, lookupFs, hf]

/-- A three-component lookup success forces its parent to be a directory. -/
theorem lookup_parent_dir {t e : FsEntry} {a b c3 : String}
    (h : lookupFs [a, b, c3] t = some e) : dirExists t [a, b] = true := by
  cases t with
  | file i d => simp [lookupFs] at h
  | link tg => simp [lookupFs] at h
  | dir cs =>
    simp only [lookupFs] at h
    cases hf1 : findC cs a with
    | none => rw [hf1] at h; simp at h
    | some t1 =>
      rw [hf1] at h
      cases t1 with
      | file i d => simp [lookupFs] at h
      | link tg => simp [lookupFs] at h
      | dir cs1 =>
        simp only [lookupFs] at h
        cases hf2 : findC cs1 b with
        | none => rw [hf2] at h; simp at h
        | some t2 =>
          rw [hf2] at h
          cases t2 with
          | file i d => simp [lookupFs] at h
          | link tg => simp [lookupFs] at h
          | dir cs2 => simp [dirExists, lookupFs, hf1, hf2, isDirE]

/-- `MkdirAll` never removes a directory: every existing directory path
still exists afterwards. -/
theorem mkdirAll_dirExists_mono :
    ∀ {p : List String} {t c : FsEntry}, mkdirAll p t = some c →
      ∀ q : List String, dirExists t q = true → dirExists c q = true := by
  intro p
  induction p with
  | nil =>
    intro t c h q hq
    cases t with
    | file i d => simp [mkdirAll, isDirE] at h
    | link tg => simp [mkdirAll, isDirE] at h
    | dir cs =>
      simp only [mkdirAll, isDirE, if_true] at h
      simp only [Option.some.injEq] at h
      exact h ▸ hq
  | cons n p' ih =>
    intro t c h q hq
    cases t with
    | file i d => simp [mkdirAll] at h
    | link tg => simp [mkdirAll] at h
    | dir cs =>
      simp only [mkdirAll] at h
      cases hf : findC cs n with
      | some ch =>
        rw [hf] at h
        dsimp only at h
        cases hm : mkdirAll p' ch with
        | none => rw [hm] at h; simp at h
        | some ch' =>
          rw [hm] at h
          simp only [Option.map_some', Option.some.injEq] at h
          subst h
          cases q with
          | nil => simpa [dirExists, lookupFs, isDirE] using hq
          | cons m q' =>
            by_cases hmn : m = n
            · subst hmn
              rw [dirExists_cons_found hf] at hq
              rw [dirExists_cons_found ((setChild_find).trans (if_pos rfl))]
              exact ih hm q' hq
            · cases hfm : findC cs m with
              | none => rw [dirExists_cons_missing hfm] at hq; exact absurd hq (by simp)
              | some ch2 =>
                rw [dirExists_cons_found hfm] at hq
                rw [dirExists_cons_found (((setChild_find).trans (if_neg hmn)).trans hfm)]
                exact hq
      | none =>
        rw [hf] at h
        simp only [Option.some.injEq] at h
        subst h
        cases q with
        | nil => simpa [dirExists, lookupFs, isDirE] using hq
        | cons m q' =>
          by_cases hmn : m = n
          · subst hmn
            rw [dirExists_cons_missing hf] at hq
            exact absurd hq (by simp)
          · cases hfm : findC cs m with
            | none => rw [dirExists_cons_missing hfm] at hq; exact absurd hq (by simp)
            | some ch2 =>
              rw [dirExists_cons_found hfm] at hq
              rw [dirExists_cons_found (((setChild_find).trans (if_neg hmn)).trans hfm)]
              exact hq

/-- `OpenFile(O_CREATE)` never removes a directory. -/
theorem ensureFileAt_dirExists_mono :
    ∀ {p : List String} {t c : FsEntry}, ensureFileAt p t = some c →
      ∀ q : List String, dirExists t q = true → dirExists c q = true := by
  intro p
  induction p with
  | nil => intro t c h q hq; simp [ensureFileAt] at h
  | cons n p' ih =>
    intro t c h q hq
    cases p' with
    | nil =>
      cases t with
      | file i d => simp [ensureFileAt] at h
      | link tg => simp [ensureFileAt] at h
      | dir cs =>
        simp only [ensureFileAt] at h
        cases hf : findC cs n with
        | none =>
          rw [hf] at h
          simp only [Option.some.injEq] at h
          subst h
          cases q with
          | nil => simpa [dirExists, lookupFs, isDirE] using hq
          | cons m q' =>
            by_cases hmn : m = n
            · subst hmn
              rw [dirExists_cons_missing hf] at hq
              exact absurd hq (by simp)
            · cases hfm : findC cs m with
              | none => rw [dirExists_cons_missing hfm] at hq; exact absurd hq (by simp)
              | some ch2 =>
                rw [dirExists_cons_found hfm] at hq
                rw [dirExists_cons_found (((setChild_find).trans (if_neg hmn)).trans hfm)]
                exact hq
        | some ch =>
          rw [hf] at h
          cases ch with
          | file i d =>
            simp only [Option.some.injEq] at h
            exact h ▸ hq
          | link tg => simp at h
          | dir cs1 => simp at h
    | cons m2 rest =>
      cases t with
      | file i d => simp [ensureFileAt] at h
      | link tg => simp [ensureFileAt] at h
      | dir cs =>
        simp only [ensureFileAt] at h
        cases hf : findC cs n with
        | none => rw [hf] at h; simp at h
        | some ch =>
          rw [hf] at h
          dsimp only at h
          cases hm : ensureFileAt (m2 :: rest) ch with
          | none => rw [hm] at h; simp at h
          | some ch' =>
            rw [hm] at h
            simp only [Option.map_some', Option.some.injEq] at h
            subst h
            cases q with
            | nil => simpa [dirExists, lookupFs, isDirE] using hq
            | cons m q' =>
              by_cases hmn : m = n
              · subst hmn
                rw [dirExists_cons_found hf] at hq
                rw [dirExists_cons_found ((setChild_find).trans (if_pos rfl))]
                exact ih hm q' hq
              · cases hfm : findC cs m with
                | none => rw [dirExists_cons_missing hfm] at hq; exact absurd hq (by simp)
                | some ch2 =>
                  rw [dirExists_cons_found hfm] at hq
                  rw [dirExists_cons_found (((setChild_find).trans (if_neg hmn)).trans hfm)]
                  exact hq

/-- `os.Rename` into a fresh target never removes a directory from the
destination tree. -/
theorem placeNew_dirExists_mono {e : FsEntry} :
    ∀ {p : List String} {t c : FsEntry}, placeNew p e t = some c →
      ∀ q : List String, dirExists t q = true → dirExists c q = true := by
  intro p
  induction p with
  | nil => intro t c h q hq; simp [placeNew] at h
  | cons n p' ih =>
    intro t c h q hq
    cases p' with
    | nil =>
      cases t with
      | file i d => simp [placeNew] at h
      | link tg => simp [placeNew] at h
      | dir cs =>
        simp only [placeNew] at h
        cases hf : findC cs n with
        | none =>
          rw [hf] at h
          simp only [Option.some.injEq] at h
          subst h
          cases q with
          | nil => simpa [dirExists, lookupFs, isDirE] using hq
          | cons m q' =>
            by_cases hmn : m = n
            · subst hmn
              rw [dirExists_cons_missing hf] at hq
              exact absurd hq (by simp)
            · cases hfm : findC cs m with
              | none => rw [dirExists_cons_missing hfm] at hq; exact absurd hq (by simp)
              | some ch2 =>
                rw [dirExists_cons_found hfm] at hq
                rw [dirExists_cons_found (((setChild_find).trans (if_neg hmn)).trans hfm)]
                exact hq
        | some ch => rw [hf] at h; simp at h
    | cons m2 rest =>
      cases t with
      | file i d => simp [placeNew] at h
      | link tg => simp [placeNew] at h
      | dir cs =>
        simp only [placeNew] at h
        cases hf : findC cs n with
        | none => rw [hf] at h; simp at h
        | some ch =>
          rw [hf] at h
          dsimp only at h
          cases hm : placeNew (m2 :: rest) e ch with
          | none => rw [hm] at h; simp at h
          | some ch' =>
            rw [hm] at h
            simp only [Option.map_some', Option.some.injEq] at h
            subst h
            cases q with
            | nil => simpa [dirExists, lookupFs, isDirE] using hq
            | cons m q' =>
              by_cases hmn : m = n
              · subst hmn
                rw [dirExists_cons_found hf] at hq
                rw [dirExists_cons_found ((setChild_find).trans (if_pos rfl))]
                exact ih hm q' hq
              · cases hfm : findC cs m with
                | none => rw [dirExists_cons_missing hfm] at hq; exact absurd hq (by simp)
                | some ch2 =>
                  rw [dirExists_cons_found hfm] at hq
                  rw [dirExists_cons_found (((setChild_find).trans (if_neg hmn)).trans hfm)]
                  exact hq

/-- With the flock available, `acquireCacheLock` reports an I/O error or a
held lock — never the silent null handle. -/
theorem acquireCacheLock_true_held {n k : String} {cache c : FsEntry}
    {r : Option (Option Unit)} (h : acquireCacheLock true n k cache = (c, r)) :
    r = none ∨ r = some (some ()) := by
  simp only [acquireCacheLock] at h
  cases h1 : mkdirAll [n] cache with
  | none => rw [h1] at h; cases h; exact Or.inl rfl
  | some c1 =>
    rw [h1] at h
    dsimp only at h
    cases h2 : ensureFileAt [n, lockName k] c1 with
    | none => rw [h2] at h; cases h; exact Or.inl rfl
    | some c2 =>
      rw [h2] at h
      simp only [if_true] at h
      cases h
      exact Or.inr rfl

/-- `acquireCacheLock` keeps the cache tree well-formed. -/
theorem acquireCacheLock_nodup {fa : Bool} {n k : String} {cache c : FsEntry}
    {r : Option (Option Unit)} (h : acquireCacheLock fa n k cache = (c, r))
    (hnd : nodupKeys cache = true) : nodupKeys c = true := by
  simp only [acquireCacheLock] at h
  cases h1 : mkdirAll [n] cache with
  | none => rw [h1] at h; cases h; exact hnd
  | some c1 =>
    rw [h1] at h
    dsimp only at h
    cases h2 : ensureFileAt [n, lockName k] c1 with
    | none => rw [h2] at h; cases h; exact mkdirAll_nodup hnd h1
    | some c2 =>
      rw [h2] at h
      have hc2 : nodupKeys c2 = true := ensureFileAt_nodup (mkdirAll_nodup hnd h1) h2
      cases fa <;> simp only [if_true, Bool.false_eq_true, if_false] at h <;>
        (cases h; exact hc2)

/-- `acquireCacheLock` never removes a directory from the cache tree. -/
theorem acquireCacheLock_dirExists_mono {fa : Bool} {n k : String} {cache c : FsEntry}
    {r : Option (Option Unit)} (h : acquireCacheLock fa n k cache = (c, r)) :
    ∀ q : List String, dirExists cache q = true → dirExists c q = true := by
  intro q hq
  simp only [acquireCacheLock] at h
  cases h1 : mkdirAll [n] cache with
  | none => rw [h1] at h; cases h; exact hq
  | some c1 =>
    rw [h1] at h
    dsimp only at h
    have hc1 : dirExists c1 q = true := mkdirAll_dirExists_mono h1 q hq
    cases h2 : ensureFileAt [n, lockName k] c1 with
    | none => rw [h2] at h; cases h; exact hc1
    | some c2 =>
      rw [h2] at h
      have hc2 : dirExists c2 q = true := ensureFileAt_dirExists_mono h2 q hc1
      cases fa <;> simp only [if_true, Bool.false_eq_true, if_false] at h <;>
        (cases h; exact hc2)

/-- Renaming a subtree away and placing it back at the same path (what a
sync with `hardlink_back` does to the workspace) yields an observationally
equivalent, still well-formed tree: every lookup answers as before, the
subtree merely sits at a new position in its parent's listing. -/
theorem moveBack_envEquiv :
    ∀ {p : List String} {t t' e : FsEntry},
      nodupKeys t = true →
      lookupFs p t = some e →
      placeNew p e (removeAt p t) = some t' →
      envEquiv t t' ∧ nodupKeys t' = true := by
  intro p
  induction p with
  | nil => intro t t' e _ _ hpl; simp [removeAt, placeNew] at hpl
  | cons n p' ih =>
    intro t t' e hnd hlk hpl
    cases t with
    | file i d => simp [lookupFs] at hlk
    | link tg => simp [lookupFs] at hlk
    | dir cs =>
      simp only [lookupFs] at hlk
      cases hf : findC cs n with
      | none => rw [hf] at hlk; simp at hlk
      | some c =>
        rw [hf] at hlk
        dsimp only at hlk
        cases p' with
        | nil =>
          simp only [lookupFs, Option.some.injEq] at hlk
          subst hlk
          rw [show removeAt [n] (.dir cs) = .dir (eraseChild cs n) from rfl] at hpl
          simp only [placeNew] at hpl
          rw [eraseChild_find_self (nodup_dir_names hnd)] at hpl
          simp only [Option.some.injEq] at hpl
          subst hpl
          constructor
          · intro q
            cases q with
            | nil => rfl
            | cons m q' =>
              by_cases hmn : m = n
              · subst hmn
                simp only [lookupFs]
                rw [hf, (setChild_find).trans (if_pos rfl)]
              · simp only [lookupFs]
                rw [(setChild_find).trans (if_neg hmn), eraseChild_find_ne hmn]
          · have h1 : nodupKeys (.dir (eraseChild cs n)) = true := by
              simp only [nodupKeys, Bool.and_eq_true]
              exact ⟨nodupNames_eraseChild (nodup_dir_names hnd),
                     nodupList_eraseChild (nodup_dir_list hnd)⟩
            exact setChild_nodup h1 (nodupList_mem (nodup_dir_list hnd) (findC_mem hf))
        | cons m2 rest =>
          rw [removeAt_cons_found (by simp) hf] at hpl
          rw [placeNew_cons_found (by simp) ((setChild_find).trans (if_pos rfl))] at hpl
          cases hpc : placeNew (m2 :: rest) e (removeAt (m2 :: rest) c) with
          | none => rw [hpc] at hpl; simp at hpl
          | some c' =>
            rw [hpc] at hpl
            simp only [Option.map_some', Option.some.injEq] at hpl
            rw [setChild_setChild] at hpl
            subst hpl
            have hc : nodupKeys c = true :=
              nodupList_mem (nodup_dir_list hnd) (findC_mem hf)
            obtain ⟨heq, hnd'⟩ := ih hc hlk hpc
            constructor
            · intro q
              cases q with
              | nil => rfl
              | cons m q' =>
                by_cases hmn : m = n
                · subst hmn
                  simp only [lookupFs]
                  rw [hf, (setChild_find).trans (if_pos rfl)]
                  exact heq q'
                · simp only [lookupFs]
                  rw [(setChild_find).trans (if_neg hmn)]
            · exact setChild_nodup hnd hnd'

/-- A successful `moveToCache` with the flock available and `hardlinkBack`
set leaves an observationally equivalent workspace, keeps both trees
well-formed, never removes cache directories, and leaves the cache entry
directory `<n>/<k>` existing. -/
theorem moveToCache_ok {n k : String} {p : List String} {s s' : SyncState}
    (h : moveToCache true n k p true s = (s', none))
    (hne : nodupKeys s.env = true) (hnc : nodupKeys s.cache = true) :
    envEquiv s.env s'.env
    ∧ nodupKeys s'.env = true ∧ nodupKeys s'.cache = true
    ∧ (∀ q : List String, dirExists s.cache q = true → dirExists s'.cache q = true)
    ∧ dirExists s'.cache [n, k] = true := by
  simp only [moveToCache] at h
  rcases hacq : acquireCacheLock true n k s.cache with ⟨c, r⟩
  rw [hacq] at h
  have hcnd : nodupKeys c = true := acquireCacheLock_nodup hacq hnc
  have hcmono := acquireCacheLock_dirExists_mono hacq
  rcases acquireCacheLock_true_held hacq with rfl | rfl
  · dsimp only at h
    simp at h
  · dsimp only at h
    by_cases hde : dirExists c [n, k, baseName p] = true
    · rw [if_pos hde] at h
      have hs' : s' = { s with cache := c } := (congrArg Prod.fst h).symm
      subst hs'
      refine ⟨envEquiv_refl _, hne, hcnd, hcmono, ?_⟩
      simp only [dirExists] at hde
      cases hl : lookupFs [n, k, baseName p] c with
      | none => rw [hl] at hde; simp at hde
      | some e2 => exact lookup_parent_dir hl
    · rw [if_neg hde] at h
      cases hm : mkdirAll [n, k] c with
      | none => rw [hm] at h; simp at h
      | some c2 =>
        rw [hm] at h
        dsimp only at h
        cases hl : lookupFs p s.env with
        | none => rw [hl] at h; simp at h
        | some e =>
          rw [hl] at h
          dsimp only at h
          cases hp : placeNew [n, k, baseName p] e c2 with
          | none => rw [hp] at h; simp at h
          | some c3 =>
            rw [hp] at h
            dsimp only at h
            cases hb2 : placeNew p e (removeAt p s.env) with
            | none => rw [hb2] at h; simp at h
            | some env2 =>
              rw [hb2] at h
              dsimp only at h
              have hs' : s' = ⟨env2, c3⟩ := (congrArg Prod.fst h).symm
              subst hs'
              have he : nodupKeys e = true := lookupFs_nodup hne hl
              obtain ⟨heq, hnd2⟩ := moveBack_envEquiv hne hl hb2
              have hc2nd : nodupKeys c2 = true := mkdirAll_nodup hcnd hm
              have hc3nd : nodupKeys c3 = true := placeNew_nodup he hc2nd hp
              have htr := placeNew_triple_target hp
              refine ⟨heq, hnd2, hc3nd, ?_, ?_⟩
              · intro q hq
                exact placeNew_dirExists_mono hp q
                  (mkdirAll_dirExists_mono hm q (hcmono q hq))
              · exact lookup_parent_dir htr.1

/-- When none of an artifact's paths exist as workspace directories, the
sync loop does nothing. -/
theorem syncLoop_all_skip {fa : Bool} {n k : String} {hlb : Bool} :
    ∀ {paths : List (List String)} {s : SyncState},
      (∀ p ∈ paths, dirExists s.env p = false) →
      syncLoop fa n k hlb paths s = (s, none) := by
  intro paths
  induction paths with
  | nil => intro s _; rfl
  | cons p rest ih =>
    intro s hall
    simp only [syncLoop]
    rw [if_neg (by rw [hall p (List.mem_cons_self p rest)]; simp)]
    exact ih (fun q hq => hall q (List.mem_cons_of_mem p hq))

/-- A successful sync loop (flock available, `hardlinkBack` set) preserves
the workspace observationally and well-formedness, never removes cache
directories, and either leaves the entry directory existing or was a
complete no-op because no path existed. -/
theorem syncLoop_ok {n k : String} :
    ∀ {paths : List (List String)} {s s' : SyncState},
      syncLoop true n k true paths s = (s', none) →
      nodupKeys s.env = true → nodupKeys s.cache = true →
      envEquiv s.env s'.env
      ∧ nodupKeys s'.env = true ∧ nodupKeys s'.cache = true
      ∧ (∀ q : List String, dirExists s.cache q = true → dirExists s'.cache q = true)
      ∧ (dirExists s'.cache [n, k] = true
         ∨ (s' = s ∧ ∀ p ∈ paths, dirExists s.env p = false)) := by
  intro paths
  induction paths with
  | nil =>
    intro s s' h hne hnc
    simp only [syncLoop] at h
    have hs : s = s' := congrArg Prod.fst h
    subst hs
    exact ⟨envEquiv_refl _, hne, hnc, fun q hq => hq, Or.inr ⟨rfl, by simp⟩⟩
  | cons p rest ih =>
    intro s s' h hne hnc
    simp only [syncLoop] at h
    by_cases hd : dirExists s.env p = true
    · rw [if_pos hd] at h
      rcases hmv : moveToCache true n k p true s with ⟨s1, r⟩
      rw [hmv] at h
      cases r with
      | some e2 => dsimp only at h; simp at h
      | none =>
        dsimp only at h
        obtain ⟨heq1, hne1, hnc1, hmono1, hent1⟩ := moveToCache_ok hmv hne hnc
        obtain ⟨heq2, hne2, hnc2, hmono2, _⟩ := ih h hne1 hnc1
        exact ⟨envEquiv_trans heq1 heq2, hne2, hnc2,
          fun q hq => hmono2 q (hmono1 q hq), Or.inl (hmono2 [n, k] hent1)⟩
    · rw [if_neg hd] at h
      obtain ⟨heq, hne1, hnc1, hmono, hor⟩ := ih h hne hnc
      refine ⟨heq, hne1, hnc1, hmono, ?_⟩
      rcases hor with hent | ⟨rfl, hall⟩
      · exact Or.inl hent
      · refine Or.inr ⟨rfl, ?_⟩
        intro q hq
        rcases List.mem_cons.mp hq with rfl | hq'
        · rw [Bool.not_eq_true] at hd; exact hd
        · exact hall q hq'

/-- A successful `syncArtifact` (flock available, `hardlinkBack` set)
preserves the workspace observationally, keeps both trees well-formed,
never removes cache directories — and on any observationally equivalent
workspace whose cache contains everything the run produced, running the
same artifact again is the identity. -/
theorem syncArtifact_ok {runCmd : String → Option (List Nat)} {a : ArtifactConfig}
    {s s' : SyncState}
    (h : syncArtifact runCmd true true a s = (s', none))
    (hne : nodupKeys s.env = true) (hnc : nodupKeys s.cache = true) :
    envEquiv s.env s'.env
    ∧ nodupKeys s'.env = true ∧ nodupKeys s'.cache = true
    ∧ (∀ q : List String, dirExists s.cache q = true → dirExists s'.cache q = true)
    ∧ (∀ t : SyncState, envEquiv t.env s.env →
        (∀ q : List String, dirExists s'.cache q = true → dirExists t.cache q = true) →
        syncArtifact runCmd true true a t = (t, none)) := by
  simp only [syncArtifact] at h
  by_cases hbp : isBuildInProgress a s.env = true
  · rw [if_pos hbp] at h; simp at h
  · rw [if_neg hbp] at h
    cases hk : ComputeCacheKey a (readEnv s.env) runCmd with
    | error e2 => rw [hk] at h; simp at h
    | ok k =>
      rw [hk] at h
      dsimp only at h
      have hskip : ∀ t : SyncState, envEquiv t.env s.env →
          dirExists t.cache [a.Name, k] = true →
          syncArtifact runCmd true true a t = (t, none) := by
        intro t hteq htc
        simp only [syncArtifact]
        rw [envEquiv_isBuildInProgress hteq a, if_neg hbp, envEquiv_readEnv hteq, hk]
        dsimp only
        rw [if_pos htc]
      by_cases hde : dirExists s.cache [a.Name, k] = true
      · rw [if_pos hde] at h
        have hs' : s' = s := (congrArg Prod.fst h).symm
        subst hs'
        refine ⟨envEquiv_refl _, hne, hnc, fun q hq => hq, ?_⟩
        intro t hteq hmono
        exact hskip t hteq (hmono _ hde)
      · rw [if_neg hde] at h
        obtain ⟨heq, hne1, hnc1, hmono, hor⟩ := syncLoop_ok h hne hnc
        refine ⟨heq, hne1, hnc1, hmono, ?_⟩
        intro t hteq htmono
        rcases hor with hent | ⟨rfl, hall⟩
        · exact hskip t hteq (htmono _ hent)
        · by_cases htc : dirExists t.cache [a.Name, k] = true
          · exact hskip t hteq htc
          · simp only [syncArtifact]
            rw [envEquiv_isBuildInProgress hteq a, if_neg hbp, envEquiv_readEnv hteq, hk]
            dsimp only
            rw [if_neg htc]
            exact syncLoop_all_skip (fun p hp => by
              rw [envEquiv_dirExists hteq p]
              exact hall p hp)

/-- A successful `Sync` (flock available, `hardlinkBack` set) preserves the
workspace observationally, keeps the state well-formed, never removes
cache directories, and running it again from the reached state is the
identity. -/
theorem Sync_ok {runCmd : String → Option (List Nat)} :
    ∀ {arts : List ArtifactConfig} {s s' : SyncState},
      Sync runCmd true true arts s = (s', none) →
      nodupKeys s.env = true → nodupKeys s.cache = true →
      envEquiv s.env s'.env
      ∧ nodupKeys s'.env = true ∧ nodupKeys s'.cache = true
      ∧ (∀ q : List String, dirExists s.cache q = true → dirExists s'.cache q = true)
      ∧ Sync runCmd true true arts s' = (s', none) := by
  intro arts
  induction arts with
  | nil =>
    intro s s' h hne hnc
    simp only [Sync] at h
    have hs : s = s' := congrArg Prod.fst h
    subst hs
    exact ⟨envEquiv_refl _, hne, hnc, fun q hq => hq, rfl⟩
  | cons a rest ih =>
    intro s s' h hne hnc
    simp only [Sync] at h
    rcases hsa : syncArtifact runCmd true true a s with ⟨s1, r⟩
    rw [hsa] at h
    cases r with
    | some e2 => dsimp only at h; simp at h
    | none =>
      dsimp only at h
      obtain ⟨heqA, hneA, hncA, hmonoA, hskip⟩ := syncArtifact_ok hsa hne hnc
      obtain ⟨heqB, hneB, hncB, hmonoB, hrunB⟩ := ih h hneA hncA
      refine ⟨envEquiv_trans heqA heqB, hneB, hncB,
        fun q hq => hmonoB q (hmonoA q hq), ?_⟩
      simp only [Sync]
      rw [hskip s' (envEquiv_symm (envEquiv_trans heqA heqB)) hmonoB]
      dsimp only
      exact hrunB

/-- C8, amended: with `opts.hardlink_back` set and the advisory flock
available, a successful `Sync` is idempotent — running it again from the
reached state returns that state unchanged with no error.  The hardlink
fanout restores every workspace path, so the second run recomputes the
same keys, finds every touched cache-entry directory already present (and
every untouched artifact still without existing paths), and performs no
mutation.  (Without `hardlink_back` the claim fails, see
`Sync_not_idempotent_cex`: the first run may remove the tree holding
another artifact's key file, changing that artifact's key.) -/
theorem Sync_idempotent_hardlinkBack (runCmd : String → Option (List Nat))
    (arts : List ArtifactConfig) (s0 : SyncState)
    (hne : nodupKeys s0.env = true) (hnc : nodupKeys s0.cache = true)
    (h1 : (Sync runCmd true true arts s0).2 = none) :
    Sync runCmd true true arts (Sync runCmd true true arts s0).1
      = ((Sync runCmd true true arts s0).1, none) := by
  have h : Sync runCmd true true arts s0 = ((Sync runCmd true true arts s0).1, none) := by
    rw [← h1]
  exact (Sync_ok h hne hnc).2.2.2.2

set_option maxRecDepth 100000 in
/-- Witness for `Sync_idempotent_hardlinkBack` at a concrete state: one
artifact, one workspace tree, empty cache. -/
theorem Sync_idempotent_hardlinkBack_witness :
    nodupKeys sC8w.env = true ∧ nodupKeys sC8w.cache = true
    ∧ (Sync runC8 true true [artC8y] sC8w).2 = none
    ∧ Sync runC8 true true [artC8y] (Sync runC8 true true [artC8y] sC8w).1
        = ((Sync runC8 true true [artC8y] sC8w).1, none) :=
  ⟨by simp [sC8w, nodupKeys, nodupKeys.nodupList, nodupNames],
   by simp [sC8w, nodupKeys, nodupKeys.nodupList, nodupNames],
   rfl,
   Sync_idempotent_hardlinkBack runC8 [artC8y] sC8w
     (by simp [sC8w, nodupKeys, nodupKeys.nodupList, nodupNames])
     (by simp [sC8w, nodupKeys, nodupKeys.nodupList, nodupNames]) rfl⟩

set_option maxRecDepth 400000 in
/-- C8, counterexample to the claim as stated ("for every artifact list,
workspace and options"): with `hardlink_back` false, the first successful
run moves `dir` — which holds artifact `x`'s key file — into `y`'s cache
entry.  The second run therefore computes a *different* key for `x`
(the key file now reads as absent), misses the cache, and moves `p1` away:
the two runs do not produce the same on-disk state (`p1` exists after one
run, is gone after two). -/
theorem Sync_not_idempotent_cex :
    (Sync runC8 true false [artC8x, artC8y] sCexC8).2 = none
    ∧ (Sync runC8 true false [artC8x, artC8y]
        (Sync runC8 true false [artC8x, artC8y] sCexC8).1).2 = none
    ∧ lookupFs ["p1"] (Sync runC8 true false [artC8x, artC8y] sCexC8).1.env
        = some (.dir [])
    ∧ lookupFs ["p1"] (Sync runC8 true false [artC8x, artC8y]
        (Sync runC8 true false [artC8x, artC8y] sCexC8).1).1.env = none
    ∧ (Sync runC8 true false [artC8x, artC8y]
        (Sync runC8 true false [artC8x, artC8y] sCexC8).1).1
        ≠ (Sync runC8 true false [artC8x, artC8y] sCexC8).1 := by
  refine ⟨rfl, rfl, rfl, rfl, ?_⟩
  intro h
  have h2 : (none : Option FsEntry) = some (FsEntry.dir []) := by
    calc (none : Option FsEntry)
        = lookupFs ["p1"] (Sync runC8 true false [artC8x, artC8y]
            (Sync runC8 true false [artC8x, artC8y] sCexC8).1).1.env := rfl
      _ = lookupFs ["p1"] (Sync runC8 true false [artC8x, artC8y] sCexC8).1.env := by
            rw [h]
      _ = some (FsEntry.dir []) := rfl
  exact Option.noConfusion h2

end Mono
